import Mathlib

/-!
Verification of the CodePushing optimization pass (src/passes/CodePushing.cpp).

The pass moves side-effect-free assignments to "confined single-assignment"
locals forward inside a block, past conditional control flow (push points).
We embed the instruction language, the local-usage analyzer, the per-block
pusher (outer scan, backward segment scan, in-place compaction) and the pass
driver, and prove the specified properties about them.

The effect-analysis engine (ir/effects.h) is not part of the source under
verification; it is modelled from the spec as a small effect lattice over the
embedded instruction language.
-/

mutual
/-- Instruction / expression language: the IR variants relevant to the pass.
`localSet` is an assignment whose value is a sub-expression, `localGet` a
read, `ite` a conditional, `brIf` a conditional exit, `br` an unconditional
exit, `drop` a discard wrapper, `call` an opaque side-effecting instruction,
`block` a sequential block.  Mutual with `ExprList` so that decidable
equality and structural recursion are available. -/
inductive Expr where
  | const (n : Nat)
  | localGet (i : Nat)
  | localSet (i : Nat) (v : Expr)
  | brIf (cond : Expr)
  | br
  | ite (c t e : Expr)
  | drop (v : Expr)
  | call (v : Expr)
  | block (es : ExprList)
  deriving DecidableEq
inductive ExprList where
  | nil
  | cons (e : Expr) (tl : ExprList)
  deriving DecidableEq
end

def ExprList.toList : ExprList → List Expr
  | .nil => []
  | .cons e tl => e :: tl.toList

def ExprList.ofList : List Expr → ExprList
  | [] => .nil
  | e :: tl => .cons e (ExprList.ofList tl)

/-- Modelled from the spec: the effect summary the external effect engine
(ir/effects.h, `EffectAnalyzer`) produces for an expression: local reads and
writes, other side effects (memory/global effects, possible traps, calls),
and control-flow transfers out of the current scope, together with the mode
flag that excludes control-flow transfers from conflict consideration. -/
structure EffectAnalyzer where
  localsRead : List Nat
  localsWritten : List Nat
  otherEffects : Bool
  branchesOut : Bool
  ignoreBranches : Bool
  deriving DecidableEq

/-- Modelled from the spec: a fresh, empty effect accumulator. -/
def emptyEffects : EffectAnalyzer :=
  { localsRead := [], localsWritten := [], otherEffects := false
    branchesOut := false, ignoreBranches := false }

/-- Modelled from the spec: `ignoreControlFlowTransfers` puts the analyzer in
the mode where branching out of the current scope is not a conflict. -/
def ignoreControlFlowTransfers (a : EffectAnalyzer) : EffectAnalyzer :=
  { a with ignoreBranches := true }

mutual
/-- Modelled from the spec: accumulate the effects of an expression tree into
an analyzer (the `walk` operation of the effect engine). -/
def effWalk (a : EffectAnalyzer) : Expr → EffectAnalyzer
  | .const _ => a
  | .localGet i => { a with localsRead := a.localsRead ++ [i] }
  | .localSet i v =>
      let a := effWalk a v
      { a with localsWritten := a.localsWritten ++ [i] }
  | .brIf c =>
      let a := effWalk a c
      { a with branchesOut := true }
  | .br => { a with branchesOut := true }
  | .ite c t e => effWalk (effWalk (effWalk a c) t) e
  | .drop v => effWalk a v
  | .call v =>
      let a := effWalk a v
      { a with otherEffects := true }
  | .block es => effWalkL a es
def effWalkL (a : EffectAnalyzer) : ExprList → EffectAnalyzer
  | .nil => a
  | .cons e tl => effWalkL (effWalk a e) tl
end

/-- Effects of a single expression, from a fresh analyzer. -/
def effectsOf (e : Expr) : EffectAnalyzer := effWalk emptyEffects e

/-- Modelled from the spec: does the effect set contain any side effect
(writes to locals, other effects, or control transfers)?  Used on the value
of a candidate assignment: a pushed assignment may end up not executing, so
its evaluation must be unconditionally safe to skip. -/
def hasSideEffects (a : EffectAnalyzer) : Bool :=
  !a.localsWritten.isEmpty || a.otherEffects || a.branchesOut

/-- Do two lists of local indices share an element? -/
def overlap (xs ys : List Nat) : Bool := xs.any (fun x => ys.contains x)

/-- Modelled from the spec: are the control-transfer effects of `a` relevant
for conflicts (i.e. present and not excluded by the mode flag)? -/
def branchRelevant (a : EffectAnalyzer) : Bool := a.branchesOut && !a.ignoreBranches

/-- Modelled from the spec: do the two effect sets conflict if reordered?
Reads conflict with writes of the same local, writes with writes, other side
effects with each other, and a (non-excluded) control transfer conflicts with
anything observable. -/
def invalidates (a b : EffectAnalyzer) : Bool :=
  overlap a.localsWritten b.localsRead ||
  overlap a.localsRead b.localsWritten ||
  overlap a.localsWritten b.localsWritten ||
  (a.otherEffects && b.otherEffects) ||
  (branchRelevant a && (b.otherEffects || !b.localsWritten.isEmpty)) ||
  (branchRelevant b && (a.otherEffects || !a.localsWritten.isEmpty))

/-- Modelled from the spec: absorb the effects of `b` into `a` (the
`mergeIn` operation); the mode flag of the accumulator is kept. -/
def mergeIn (a b : EffectAnalyzer) : EffectAnalyzer :=
  { localsRead := a.localsRead ++ b.localsRead
    localsWritten := a.localsWritten ++ b.localsWritten
    otherEffects := a.otherEffects || b.otherEffects
    branchesOut := a.branchesOut || b.branchesOut
    ignoreBranches := a.ignoreBranches }

/-- Read / write events on locals, in the order the post-order walker
(children before parent, left to right) observes them. -/
inductive LEvent where
  | get (i : Nat)
  | set (i : Nat)
  deriving DecidableEq

mutual
/-- Post-order event sequence of an expression tree: the sequence of
`local.get` / `local.set` visits of the `PostWalker` traversal. -/
def eventsE : Expr → List LEvent
  | .const _ => []
  | .localGet i => [.get i]
  | .localSet i v => eventsE v ++ [.set i]
  | .brIf c => eventsE c
  | .br => []
  | .ite c t e => eventsE c ++ eventsE t ++ eventsE e
  | .drop v => eventsE v
  | .call v => eventsE v
  | .block es => eventsL es
def eventsL : ExprList → List LEvent
  | .nil => []
  | .cons e tl => eventsE e ++ eventsL tl
end

/-- State of the `LocalAnalyzer`: per local index, number of sets, number of
gets, and the SFA (single first assignment) flag. -/
structure LocalAnalyzer where
  numSets : Nat → Nat
  numGets : Nat → Nat
  sfa : Nat → Bool

/-- One visit step of the `LocalAnalyzer` walker: `visitLocalGet` marks the
local not-SFA when no set has been seen yet and counts the get;
`visitLocalSet` counts the set and marks not-SFA on a second set. -/
def laStep (s : LocalAnalyzer) : LEvent → LocalAnalyzer
  | .get i =>
      { s with
        sfa := if s.numSets i = 0 then (fun j => if j = i then false else s.sfa j) else s.sfa
        numGets := fun j => if j = i then s.numGets j + 1 else s.numGets j }
  | .set i =>
      let ns : Nat → Nat := fun j => if j = i then s.numSets j + 1 else s.numSets j
      { s with
        numSets := ns
        sfa := if ns i > 1 then (fun j => if j = i then false else s.sfa j) else s.sfa }

/-- A function: parameter count, total local count, and the body tree. -/
structure Func where
  numParams : Nat
  numLocals : Nat
  body : Expr
  deriving DecidableEq

/-- The `LocalAnalyzer.analyze` pre-scan: counts start at zero, parameters
start not-SFA and other locals optimistically SFA, the body is walked in
post-order, and afterwards every local with zero sets is forced not-SFA. -/
def analyze (f : Func) : LocalAnalyzer :=
  let init : LocalAnalyzer :=
    { numSets := fun _ => 0, numGets := fun _ => 0
      sfa := fun i => decide (f.numParams ≤ i) }
  let s := (eventsE f.body).foldl laStep init
  { s with sfa := fun i => s.sfa i && decide (s.numSets i ≠ 0) }

/-- `Pusher::isPushable`: an instruction is pushable when it is a
`local.set` whose target is SFA, whose gets seen so far equal its total gets
(all later reads are inside the current block), and whose value has no side
effects. -/
def isPushable (an : LocalAnalyzer) (ngs : Nat → Nat) (e : Expr) : Bool :=
  match e with
  | .localSet i v =>
      an.sfa i && decide (ngs i = an.numGets i) && !hasSideEffects (effectsOf v)
  | _ => false

/-- `Pusher::isPushPoint`: conditional control flow we push past — an `if`,
or a `br` with a condition, looking through one `drop`. -/
def isPushPoint (e : Expr) : Bool :=
  let e' := match e with | .drop v => v | _ => e
  match e' with
  | .ite _ _ _ => true
  | .brIf _ => true
  | _ => false

/-- Default expression used for out-of-range `getD` index accesses. -/
def dfl : Expr := .br

/-- The cumulative-effect and selection update of one backward-scan step at a
pushable instruction or a blocker (body of the `while (1)` loop in
`Pusher::optimizeSegment`): a pushable whose effects are invalidated by the
cumulative effects is merged into them, a non-invalidated pushable is
selected, and a non-pushable is walked into the cumulative effects. -/
def scanCum (an : LocalAnalyzer) (ngs : Nat → Nat) (cum : EffectAnalyzer) (e : Expr) :
    EffectAnalyzer :=
  if isPushable an ngs e then
    (if invalidates cum (effectsOf e) then mergeIn cum (effectsOf e) else cum)
  else effWalk cum e

/-- Selection update of one backward-scan step: a pushable that does not
conflict with the cumulative effects is appended to `toPush`. -/
def scanAcc (an : LocalAnalyzer) (ngs : Nat → Nat) (cum : EffectAnalyzer)
    (acc : List Expr) (e : Expr) : List Expr :=
  if isPushable an ngs e && !invalidates cum (effectsOf e) then acc ++ [e]
  else acc

/-- The backward scan of `Pusher::optimizeSegment`, from `i` down towards
`firstPushable`: classifies each instruction, accumulates blocking effects,
collects the selected pushables, stops after processing a pushable at
`firstPushable`, and fails (`none`, the `assert(i > 0)`) if the index would
run past zero. -/
def scanBack (an : LocalAnalyzer) (ngs : Nat → Nat) (l : List Expr) (fp : Nat) :
    Nat → EffectAnalyzer → List Expr → Option (EffectAnalyzer × List Expr)
  | 0, cum, acc =>
      if isPushable an ngs (l.getD 0 dfl) && decide (fp = 0) then
        some (scanCum an ngs cum (l.getD 0 dfl), scanAcc an ngs cum acc (l.getD 0 dfl))
      else none
  | i+1, cum, acc =>
      let e := l.getD (i+1) dfl
      let cum' := scanCum an ngs cum e
      let acc' := scanAcc an ngs cum acc e
      if isPushable an ngs e && decide (i+1 = fp) then some (cum', acc')
      else scanBack an ngs l fp i cum' acc'

/-- The compaction loop of `Pusher::optimizeSegment`: scan `steps` indices
starting at `i`; an instruction equal to the next expected element of
`toPush` (seen from its end) is skipped, any other instruction is shifted
left by the current skip count. -/
def compactLoop (toPush : List Expr) : Nat → Nat → Nat → List Expr → Nat × List Expr
  | 0, _, skip, l => (skip, l)
  | steps+1, i, skip, l =>
      if skip < toPush.length ∧ l.getD i dfl = toPush.getD (toPush.length - 1 - skip) dfl then
        compactLoop toPush steps (i+1) (skip+1) l
      else
        compactLoop toPush steps (i+1) skip
          (if skip = 0 then l else l.set (i - skip) (l.getD i dfl))

/-- The write-out loop of `Pusher::optimizeSegment`: write the selected
elements into the trailing slots ending at the push point,
`list[pushPoint - i] = toPush[i]`. -/
def writeLoop (toPush : List Expr) (pp : Nat) : Nat → Nat → List Expr → List Expr
  | 0, _, l => l
  | steps+1, i, l => writeLoop toPush pp steps (i+1) (l.set (pp - i) (toPush.getD i dfl))

/-- `Pusher::optimizeSegment`.  `Except` models the assertions: an `error`
carries the state of the block list at the moment an assertion fails (the
entry assertion `firstPushable < pushPoint`, the backward-scan assertion
`i > 0`, and the post-compaction assertion `skip == total`).  On success the
result is the resume index together with the rewritten list. -/
def optimizeSegment (an : LocalAnalyzer) (ngs : Nat → Nat) (fp pp : Nat)
    (l : List Expr) : Except (List Expr) (Nat × List Expr) :=
  if ¬ fp < pp then .error l
  else
    match scanBack an ngs l fp (pp - 1)
        (ignoreControlFlowTransfers (effWalk emptyEffects (l.getD pp dfl))) [] with
    | none => .error l
    | some (_, toPush) =>
      if toPush.length = 0 then .ok (pp + 1, l)
      else
        if (compactLoop toPush (pp + 1 - fp) fp 0 l).1 = toPush.length then
          .ok (pp + 1 - toPush.length,
            writeLoop toPush pp toPush.length 0 (compactLoop toPush (pp + 1 - fp) fp 0 l).2)
        else .error (compactLoop toPush (pp + 1 - fp) fp 0 l).2

/-- Result of running the block pusher: the rewritten list, an assertion
failure (which aborts in the source), or exhaustion of the fuel bound (used
to show termination of the outer scan). -/
inductive PRes where
  | ok (l : List Expr)
  | assertFail
  | outOfFuel
  deriving DecidableEq

/-- The outer scan of `Pusher::Pusher`: find a first pushable, then a push
point, optimize the segment between them, and continue from the resume
index.  `relevant` excludes the final element, which nothing could be used
after. -/
def pusherLoop (an : LocalAnalyzer) (ngs : Nat → Nat) (relevant : Nat) :
    Nat → Nat → Option Nat → List Expr → PRes
  | 0, _, _, _ => .outOfFuel
  | fuel+1, i, fpSt, l =>
      if i < relevant then
        match fpSt with
        | none =>
            if isPushable an ngs (l.getD i dfl) then pusherLoop an ngs relevant fuel (i+1) (some i) l
            else pusherLoop an ngs relevant fuel (i+1) none l
        | some fp =>
            if isPushPoint (l.getD i dfl) then
              match optimizeSegment an ngs fp i l with
              | .ok (i', l') => pusherLoop an ngs relevant fuel i' none l'
              | .error _ => .assertFail
            else pusherLoop an ngs relevant fuel (i+1) (some fp) l
      else .ok l

/-- Fuel that suffices for the outer scan (proved below): one unit per
forward step plus one block of units per push point that can disappear. -/
def pusherFuel (l : List Expr) : Nat :=
  (l.length - 1) + (l.length + 1) * (l.length - 1) + 1

/-- Run the block pusher on a block list (the body of `Pusher::Pusher`,
which starts at index 0 with no first pushable and never needs to push past
the final element). -/
def runPusher (an : LocalAnalyzer) (ngs : Nat → Nat) (l : List Expr) : PRes :=
  pusherLoop an ngs (l.length - 1) (pusherFuel l) 0 none l

mutual
/-- The driver walk of the `CodePushing` pass (`doWalkFunction` /
`visitLocalGet` / `visitBlock`): post-order traversal counting gets seen so
far, and on each block of at least 3 instructions, run the pusher over its
list.  An assertion failure or fuel exhaustion (both proved unreachable)
leaves the block list as is. -/
def driveE (an : LocalAnalyzer) : (Nat → Nat) → Expr → Expr × (Nat → Nat)
  | ngs, .const n => (.const n, ngs)
  | ngs, .localGet i => (.localGet i, fun j => if j = i then ngs j + 1 else ngs j)
  | ngs, .localSet i v =>
      let r := driveE an ngs v
      (.localSet i r.1, r.2)
  | ngs, .brIf c =>
      let r := driveE an ngs c
      (.brIf r.1, r.2)
  | ngs, .br => (.br, ngs)
  | ngs, .ite c t e =>
      let rc := driveE an ngs c
      let rt := driveE an rc.2 t
      let re := driveE an rt.2 e
      (.ite rc.1 rt.1 re.1, re.2)
  | ngs, .drop v =>
      let r := driveE an ngs v
      (.drop r.1, r.2)
  | ngs, .call v =>
      let r := driveE an ngs v
      (.call r.1, r.2)
  | ngs, .block es =>
      let r := driveL an ngs es
      let l := r.1.toList
      if l.length < 3 then (.block r.1, r.2)
      else
        match runPusher an r.2 l with
        | .ok l' => (.block (ExprList.ofList l'), r.2)
        | _ => (.block r.1, r.2)
def driveL (an : LocalAnalyzer) : (Nat → Nat) → ExprList → ExprList × (Nat → Nat)
  | ngs, .nil => (.nil, ngs)
  | ngs, .cons e tl =>
      let r := driveE an ngs e
      let rs := driveL an r.2 tl
      (.cons r.1 rs.1, rs.2)
end

/-- Run the whole `CodePushing` pass on one function: analyze local usage,
then walk the body with the running get counters starting at zero. -/
def runPass (f : Func) : Func :=
  { f with body := (driveE (analyze f) (fun _ => 0) f.body).1 }

/-- Virtual slice of a list: the values `getD` reads at indices
`a, a+1, ..., a+n-1` (out-of-range indices give the default). -/
def vslice (l : List Expr) : Nat → Nat → List Expr
  | _, 0 => []
  | a, n+1 => l.getD a dfl :: vslice l (a+1) n

/-- The pure greedy subsequence matcher underlying the compaction loop: the
kept (non-matched) elements while matching the pattern list in order. -/
def greedyKeep : List Expr → List Expr → List Expr
  | [], _ => []
  | x :: xs, [] => x :: greedyKeep xs []
  | x :: xs, y :: t => if x = y then greedyKeep xs t else x :: greedyKeep xs (y :: t)

/-- The number of matched elements of the greedy matcher. -/
def greedySkip : List Expr → List Expr → Nat
  | [], _ => 0
  | x :: xs, [] => greedySkip xs []
  | x :: xs, y :: t => if x = y then 1 + greedySkip xs t else greedySkip xs (y :: t)

/-- The (inclusive) segment of a block list between the first pushable and
the push point. -/
def segOf (l : List Expr) (fp pp : Nat) : List Expr := (l.drop fp).take (pp + 1 - fp)

/-- Number of push points among positions `i, ..., i + steps - 1` of the
list. -/
def ppCountGo (l : List Expr) : Nat → Nat → Nat
  | 0, _ => 0
  | steps+1, i => (if isPushPoint (l.getD i dfl) then 1 else 0) + ppCountGo l steps (i+1)

/-- Termination measure of the outer scan: remaining distance to the end,
plus one block of units for every remaining push point (pushing rewinds the
index by at most a block, and consumes a push point for good). -/
def pusherMeasure (l : List Expr) (relevant i : Nat) : Nat :=
  (relevant - i) + (l.length + 1) * ppCountGo l (relevant - i) i

/-- One occurrence of `x` strictly before one of `y` in the list. -/
def Before (s : List Expr) (x y : Expr) : Prop :=
  ∃ p q, p < q ∧ q < s.length ∧ s.getD p dfl = x ∧ s.getD q dfl = y

/-- The key exclusion property of a selected pushable at position `j`: no
instruction after it (up to the push point) that was not itself selected
reads the slot the pushable assigns. -/
def GoodAt (l : List Expr) (pp : Nat) (S : List Expr) (j : Nat) : Prop :=
  ∀ k v, l.getD j dfl = .localSet k v →
    ∀ m, j < m → m ≤ pp → ¬ l.getD m dfl ∈ S →
      ¬ k ∈ (effectsOf (l.getD m dfl)).localsRead

/-- Number of `set` events on slot `i` in an event sequence. -/
def countSets : List LEvent → Nat → Nat
  | [], _ => 0
  | .set j :: rest, i => (if j = i then 1 else 0) + countSets rest i
  | .get _ :: rest, i => countSets rest i

/-- No `get` of slot `i` occurs before the first `set` of slot `i`. -/
def noGetBeforeSet : List LEvent → Nat → Bool
  | [], _ => true
  | .get j :: rest, i => if j = i then false else noGetBeforeSet rest i
  | .set j :: rest, i => if j = i then true else noGetBeforeSet rest i

/-- The survival condition of the SFA flag over an event sequence, given the
number of sets of slot `i` seen so far: every get of `i` must be preceded by
a set, and no second set may occur. -/
def sfaOK (i : Nat) : Nat → List LEvent → Bool
  | _, [] => true
  | seen, .get j :: rest =>
      if j = i then decide (1 ≤ seen) && sfaOK i seen rest else sfaOK i seen rest
  | seen, .set j :: rest =>
      if j = i then decide (seen = 0) && sfaOK i (seen + 1) rest else sfaOK i seen rest

theorem ExprList.toList_ofList (l : List Expr) : (ExprList.ofList l).toList = l := by
  induction l with
  | nil => rfl
  | cons e tl ih => simp [ExprList.ofList, ExprList.toList, ih]

/-! Basic list index helpers. -/

theorem getD_set_self {l : List Expr} {n : Nat} {a d : Expr} (h : n < l.length) :
    (l.set n a).getD n d = a := by
  simp [List.getD_eq_getElem?_getD, List.getElem?_set_self', h, List.getElem?_eq_getElem]

theorem getD_set_ne {l : List Expr} {n m : Nat} {a d : Expr} (h : m ≠ n) :
    (l.set n a).getD m d = l.getD m d := by
  simp [List.getD_eq_getElem?_getD, List.getElem?_set_ne (by omega : n ≠ m)]

theorem getD_append_left {l₁ l₂ : List Expr} {n : Nat} {d : Expr} (h : n < l₁.length) :
    (l₁ ++ l₂).getD n d = l₁.getD n d := by
  simp [List.getD_eq_getElem?_getD, List.getElem?_append_left h]

theorem getD_append_right {l₁ l₂ : List Expr} {n : Nat} {d : Expr} (h : l₁.length ≤ n) :
    (l₁ ++ l₂).getD n d = l₂.getD (n - l₁.length) d := by
  simp [List.getD_eq_getElem?_getD, List.getElem?_append_right h]

theorem getD_eq_getElem {l : List Expr} {n : Nat} {d : Expr} (h : n < l.length) :
    l.getD n d = l[n] := by
  simp [List.getD_eq_getElem?_getD, List.getElem?_eq_getElem h]

/-! Structure of the effect walk: walking an expression appends exactly the
expression's own effects to the accumulator.  This is the `merge` lattice
structure the spec requires of the effect engine. -/


theorem mergeIn_assoc (a b c : EffectAnalyzer) :
    mergeIn (mergeIn a b) c = mergeIn a (mergeIn b c) := by
  simp [mergeIn, List.append_assoc, Bool.or_assoc]

mutual
theorem effWalk_eq (a : EffectAnalyzer) (e : Expr) :
    effWalk a e = mergeIn a (effectsOf e) := by
  cases e with
  | const n => simp [effWalk, effectsOf, mergeIn, emptyEffects]
  | localGet i => simp [effWalk, effectsOf, mergeIn, emptyEffects]
  | localSet i v =>
      have h1 : effWalk a (.localSet i v) =
          { effWalk a v with localsWritten := (effWalk a v).localsWritten ++ [i] } := rfl
      have h2 : effectsOf (.localSet i v) =
          { effectsOf v with localsWritten := (effectsOf v).localsWritten ++ [i] } := rfl
      rw [h1, h2, effWalk_eq a v]
      simp [mergeIn, List.append_assoc]
  | brIf c =>
      have h1 : effWalk a (.brIf c) =
          { effWalk a c with branchesOut := true } := rfl
      have h2 : effectsOf (.brIf c) = { effectsOf c with branchesOut := true } := rfl
      rw [h1, h2, effWalk_eq a c]
      simp [mergeIn]
  | br => simp [effWalk, effectsOf, mergeIn, emptyEffects]
  | ite c t e =>
      have h1 : effWalk a (.ite c t e) = effWalk (effWalk (effWalk a c) t) e := rfl
      have h2 : effectsOf (.ite c t e) =
          effWalk (effWalk (effWalk emptyEffects c) t) e := rfl
      rw [h1, h2, effWalk_eq a c, effWalk_eq (mergeIn a (effectsOf c)) t,
        effWalk_eq (mergeIn (mergeIn a (effectsOf c)) (effectsOf t)) e,
        effWalk_eq emptyEffects c, effWalk_eq (mergeIn emptyEffects (effectsOf c)) t,
        effWalk_eq (mergeIn (mergeIn emptyEffects (effectsOf c)) (effectsOf t)) e]
      simp [mergeIn, emptyEffects, List.append_assoc, Bool.or_assoc]
  | drop v =>
      have h1 : effWalk a (.drop v) = effWalk a v := rfl
      have h2 : effectsOf (.drop v) = effectsOf v := rfl
      rw [h1, h2, effWalk_eq a v]
  | call v =>
      have h1 : effWalk a (.call v) =
          { effWalk a v with otherEffects := true } := rfl
      have h2 : effectsOf (.call v) = { effectsOf v with otherEffects := true } := rfl
      rw [h1, h2, effWalk_eq a v]
      simp [mergeIn]
  | block es =>
      have h1 : effWalk a (.block es) = effWalkL a es := rfl
      have h2 : effectsOf (.block es) = effWalkL emptyEffects es := rfl
      rw [h1, h2]
      exact effWalkL_eq a es
theorem effWalkL_eq (a : EffectAnalyzer) (es : ExprList) :
    effWalkL a es = mergeIn a (effWalkL emptyEffects es) := by
  cases es with
  | nil => simp [effWalkL, mergeIn, emptyEffects]
  | cons e tl =>
      have h1 : effWalkL a (.cons e tl) = effWalkL (effWalk a e) tl := rfl
      have h2 : effWalkL emptyEffects (.cons e tl) = effWalkL (effWalk emptyEffects e) tl := rfl
      rw [h1, h2, effWalk_eq a e, effWalk_eq emptyEffects e,
        effWalkL_eq (mergeIn a (effectsOf e)) tl,
        effWalkL_eq (mergeIn emptyEffects (effectsOf e)) tl]
      simp [mergeIn, emptyEffects, List.append_assoc, Bool.or_assoc]
end

theorem effWalk_ignoreBranches (a : EffectAnalyzer) (e : Expr) :
    (effWalk a e).ignoreBranches = a.ignoreBranches := by
  rw [effWalk_eq] ; rfl

theorem overlap_of_mem {xs ys : List Nat} {k : Nat} (hx : k ∈ xs) (hy : k ∈ ys) :
    overlap xs ys = true := by
  simp only [overlap, List.any_eq_true]
  exact ⟨k, hx, by simpa using hy⟩

theorem invalidates_of_read_write {a b : EffectAnalyzer} {k : Nat}
    (ha : k ∈ a.localsRead) (hb : k ∈ b.localsWritten) : invalidates a b = true := by
  simp only [invalidates]
  rw [overlap_of_mem ha hb]
  simp

theorem mem_read_mergeIn_left {a b : EffectAnalyzer} {k : Nat} (h : k ∈ a.localsRead) :
    k ∈ (mergeIn a b).localsRead := by
  simp [mergeIn, h]

theorem mem_read_effWalk_acc {a : EffectAnalyzer} {e : Expr} {k : Nat}
    (h : k ∈ a.localsRead) : k ∈ (effWalk a e).localsRead := by
  rw [effWalk_eq] ; exact mem_read_mergeIn_left h

theorem mem_read_effWalk_new {a : EffectAnalyzer} {e : Expr} {k : Nat}
    (h : k ∈ (effectsOf e).localsRead) : k ∈ (effWalk a e).localsRead := by
  rw [effWalk_eq] ; simp [mergeIn, h]

theorem localSet_mem_written (i : Nat) (v : Expr) :
    i ∈ (effectsOf (.localSet i v)).localsWritten := by
  have h : effectsOf (.localSet i v) =
      { effectsOf v with localsWritten := (effectsOf v).localsWritten ++ [i] } := rfl
  rw [h] ; simp

/-! Shape facts about pushability and push points. -/

theorem isPushable_shape {an : LocalAnalyzer} {ngs : Nat → Nat} {e : Expr}
    (h : isPushable an ngs e = true) : ∃ i v, e = .localSet i v := by
  cases e <;> first
    | exact ⟨_, _, rfl⟩
    | simp_all [isPushable]

theorem isPushPoint_of_pushable {an : LocalAnalyzer} {ngs : Nat → Nat} {e : Expr}
    (h : isPushable an ngs e = true) : isPushPoint e = false := by
  obtain ⟨i, v, rfl⟩ := isPushable_shape h
  rfl

/-- Claim C3: an instruction examined by the scan is classified pushable iff
it is an assignment to a local whose slot is SFA, whose frozen running read
count equals its total read count, and whose value sub-expression has no side
effects; in particular an assignment with a side-effecting value is never
selected. -/
theorem isPushable_iff (an : LocalAnalyzer) (ngs : Nat → Nat) (e : Expr) :
    isPushable an ngs e = true ↔
      ∃ i v, e = .localSet i v ∧ an.sfa i = true ∧ ngs i = an.numGets i ∧
        hasSideEffects (effectsOf v) = false := by
  constructor
  · intro h
    obtain ⟨i, v, rfl⟩ := isPushable_shape h
    refine ⟨i, v, rfl, ?_, ?_, ?_⟩ <;> simp_all [isPushable]
  · rintro ⟨i, v, rfl, h1, h2, h3⟩
    simp [isPushable, h1, h2, h3]

theorem vslice_concat (l : List Expr) (a n : Nat) :
    vslice l a (n + 1) = vslice l a n ++ [l.getD (a + n) dfl] := by
  induction n generalizing a with
  | zero => simp [vslice]
  | succ n ih =>
      rw [vslice, ih (a+1), vslice]
      simp [Nat.add_assoc, Nat.add_comm 1 n]

theorem vslice_set_of_lt {l : List Expr} {m : Nat} {x : Expr} {a n : Nat} (h : m < a) :
    vslice (l.set m x) a n = vslice l a n := by
  induction n generalizing a with
  | zero => rfl
  | succ n ih =>
      rw [vslice, vslice, ih (by omega : m < a + 1), getD_set_ne (by omega)]

theorem vslice_getD {l : List Expr} {a n m : Nat} (h : m < n) :
    (vslice l a n).getD m dfl = l.getD (a + m) dfl := by
  induction n generalizing a m with
  | zero => omega
  | succ n ih =>
      cases m with
      | zero => simp [vslice, List.getD]
      | succ m =>
          rw [vslice]
          have : (l.getD a dfl :: vslice l (a+1) n).getD (m+1) dfl =
              (vslice l (a+1) n).getD m dfl := rfl
          rw [this, ih (by omega)]
          congr 1
          omega

theorem vslice_length (l : List Expr) (a n : Nat) : (vslice l a n).length = n := by
  induction n generalizing a with
  | zero => rfl
  | succ n ih => simp [vslice, ih]

theorem vslice_eq_drop_take {l : List Expr} {a n : Nat} (h : a + n ≤ l.length) :
    vslice l a n = (l.drop a).take n := by
  induction n generalizing a with
  | zero => simp [vslice]
  | succ n ih =>
      rw [vslice_concat, ih (by omega)]
      have hd : (l.drop a).length = l.length - a := by simp
      have h1 : (l.drop a).take (n+1) = (l.drop a).take n ++ [(l.drop a).getD n dfl] := by
        rw [List.take_succ]
        congr 1
        rw [List.getD_eq_getElem?_getD, List.getElem?_eq_getElem (by omega : n < (l.drop a).length)]
        simp
      rw [h1]
      congr 2
      rw [List.getD_eq_getElem?_getD, List.getD_eq_getElem?_getD,
        List.getElem?_drop]

theorem greedySkip_nil (s : List Expr) : greedySkip s [] = 0 := by
  induction s with
  | nil => rfl
  | cons x xs ih => simpa [greedySkip] using ih

theorem greedyKeep_nil (s : List Expr) : greedyKeep s [] = s := by
  induction s with
  | nil => rfl
  | cons x xs ih => simp [greedyKeep, ih]

theorem greedySkip_of_sublist {t s : List Expr} (h : List.Sublist t s) :
    greedySkip s t = t.length := by
  induction s generalizing t with
  | nil => cases h ; rfl
  | cons x xs ih =>
      cases t with
      | nil => simp [greedySkip_nil]
      | cons y t' =>
          by_cases hxy : x = y
          · subst hxy
            have ht : List.Sublist t' xs := by
              cases h with
              | cons _ h2 => exact (List.sublist_cons_self x t').trans h2
              | cons₂ _ h2 => exact h2
            simp [greedySkip, ih ht, Nat.add_comm]
          · have ht : List.Sublist (y :: t') xs := by
              cases h with
              | cons _ h2 => exact h2
              | cons₂ _ h2 => exact absurd rfl hxy
            simp [greedySkip, hxy, ih ht]

theorem greedyKeep_length {t s : List Expr} (h : List.Sublist t s) :
    (greedyKeep s t).length + t.length = s.length := by
  induction s generalizing t with
  | nil => cases h ; rfl
  | cons x xs ih =>
      cases t with
      | nil => simp [greedyKeep_nil]
      | cons y t' =>
          by_cases hxy : x = y
          · subst hxy
            have ht : List.Sublist t' xs := by
              cases h with
              | cons _ h2 => exact (List.sublist_cons_self x t').trans h2
              | cons₂ _ h2 => exact h2
            have hlen := ih ht
            have hg : greedyKeep (x :: xs) (x :: t') = greedyKeep xs t' := by
              simp [greedyKeep]
            rw [hg]
            simp only [List.length_cons]
            omega
          · have ht : List.Sublist (y :: t') xs := by
              cases h with
              | cons _ h2 => exact h2
              | cons₂ _ h2 => exact absurd rfl hxy
            have hlen := ih ht
            have hg : greedyKeep (x :: xs) (y :: t') = x :: greedyKeep xs (y :: t') := by
              simp [greedyKeep, hxy]
            rw [hg]
            simp only [List.length_cons] at hlen ⊢
            omega

theorem greedyKeep_of_nodup {t s : List Expr} (h : List.Sublist t s) (hnd : s.Nodup) :
    greedyKeep s t = s.filter (fun e => decide (¬ e ∈ t)) := by
  induction s generalizing t with
  | nil => cases h ; rfl
  | cons x xs ih =>
      have hx : ¬ x ∈ xs := by
        simp only [List.nodup_cons] at hnd
        exact hnd.1
      have hndx : xs.Nodup := by
        simp only [List.nodup_cons] at hnd
        exact hnd.2
      cases t with
      | nil =>
          simp [greedyKeep_nil, List.filter_eq_self]
      | cons y t' =>
          by_cases hxy : x = y
          · subst hxy
            have ht : List.Sublist t' xs := by
              cases h with
              | cons _ h2 => exact (List.sublist_cons_self x t').trans h2
              | cons₂ _ h2 => exact h2
            rw [greedyKeep, if_pos rfl, ih ht hndx]
            rw [List.filter_cons]
            have : (decide (¬ x ∈ x :: t')) = false := by simp
            rw [this]
            apply List.filter_congr
            intro e he
            have hex : e ≠ x := fun hc => hx (hc ▸ he)
            simp [hex]
          · have ht : List.Sublist (y :: t') xs := by
              cases h with
              | cons _ h2 => exact h2
              | cons₂ _ h2 => exact absurd rfl hxy
            have hxt : ¬ x ∈ y :: t' := by
              intro hc
              exact hx (ht.subset hc)
            rw [greedyKeep, if_neg hxy, ih ht hndx]
            rw [List.filter_cons]
            have : (decide (¬ x ∈ y :: t')) = true := by simpa using hxt
            rw [this]
            simp

/-! Invariants of the backward segment scan. -/

theorem scanBack_none_of_lt (an : LocalAnalyzer) (ngs : Nat → Nat) (l : List Expr)
    (fp : Nat) :
    ∀ i cum acc, i < fp → scanBack an ngs l fp i cum acc = none := by
  intro i
  induction i with
  | zero =>
      intro cum acc h
      have : decide (fp = 0) = false := by simp ; omega
      simp [scanBack, this]
  | succ i ih =>
      intro cum acc h
      have : decide (i + 1 = fp) = false := by simp ; omega
      simp only [scanBack, this, Bool.and_false, Bool.false_eq_true, if_false]
      exact ih _ _ (by omega)

theorem scanBack_sound (an : LocalAnalyzer) (ngs : Nat → Nat) (l : List Expr)
    (fp : Nat) :
    ∀ i cum acc cumF tp, scanBack an ngs l fp i cum acc = some (cumF, tp) →
      ∃ new, tp = acc ++ new ∧
        List.Sublist new.reverse (vslice l fp (i + 1 - fp)) ∧
        ∀ e, e ∈ new → isPushable an ngs e = true := by
  intro i
  induction i with
  | zero =>
      intro cum acc cumF tp h
      by_cases hg : (isPushable an ngs (l.getD 0 dfl) && decide (fp = 0)) = true
      · rw [scanBack, if_pos hg] at h
        have hfp : fp = 0 := by
          simp only [Bool.and_eq_true, decide_eq_true_eq] at hg
          exact hg.2
        have hpu : isPushable an ngs (l.getD 0 dfl) = true := by
          simp only [Bool.and_eq_true] at hg
          exact hg.1
        have htp : tp = scanAcc an ngs cum acc (l.getD 0 dfl) := by
          injection h with h2
          injection h2 with e1 e2
          exact e2.symm
        subst hfp
        by_cases hsel :
            (isPushable an ngs (l.getD 0 dfl) &&
              !invalidates cum (effectsOf (l.getD 0 dfl))) = true
        · refine ⟨[l.getD 0 dfl], ?_, ?_, ?_⟩
          · rw [htp, scanAcc, if_pos hsel]
          · simp [vslice]
          · intro e he
            simp only [List.mem_singleton] at he
            subst he
            exact hpu
        · refine ⟨[], ?_, ?_, ?_⟩
          · rw [htp, scanAcc, if_neg hsel]
            simp
          · simp
          · intro e he
            simp at he
      · rw [scanBack, if_neg hg] at h
        exact absurd h (by simp)
  | succ i ih =>
      intro cum acc cumF tp h
      by_cases hg : (isPushable an ngs (l.getD (i+1) dfl) && decide (i + 1 = fp)) = true
      · rw [scanBack, if_pos hg] at h
        have hfp : i + 1 = fp := by
          simp only [Bool.and_eq_true, decide_eq_true_eq] at hg
          exact hg.2
        have hpu : isPushable an ngs (l.getD (i+1) dfl) = true := by
          simp only [Bool.and_eq_true] at hg
          exact hg.1
        have htp : tp = scanAcc an ngs cum acc (l.getD (i+1) dfl) := by
          injection h with h2
          injection h2 with e1 e2
          exact e2.symm
        have hn : i + 1 + 1 - fp = 1 := by omega
        rw [hn]
        by_cases hsel :
            (isPushable an ngs (l.getD (i+1) dfl) &&
              !invalidates cum (effectsOf (l.getD (i+1) dfl))) = true
        · refine ⟨[l.getD (i+1) dfl], ?_, ?_, ?_⟩
          · rw [htp, scanAcc, if_pos hsel]
          · rw [← hfp]
            simp [vslice]
          · intro e he
            simp only [List.mem_singleton] at he
            subst he
            exact hpu
        · refine ⟨[], ?_, ?_, ?_⟩
          · rw [htp, scanAcc, if_neg hsel]
            simp
          · simp
          · intro e he
            simp at he
      · rw [scanBack, if_neg hg] at h
        rcases Nat.lt_or_ge i fp with hlt | hge
        · rw [scanBack_none_of_lt an ngs l fp i _ _ hlt] at h
          exact absurd h (by simp)
        · obtain ⟨new', hnew', hsub', hpu'⟩ := ih _ _ _ _ h
          have hslice : vslice l fp (i + 1 + 1 - fp) =
              vslice l fp (i + 1 - fp) ++ [l.getD (i+1) dfl] := by
            have h1 : i + 1 + 1 - fp = (i + 1 - fp) + 1 := by omega
            have h2 : fp + (i + 1 - fp) = i + 1 := by omega
            rw [h1, vslice_concat, h2]
          by_cases hsel :
              (isPushable an ngs (l.getD (i+1) dfl) &&
                !invalidates cum (effectsOf (l.getD (i+1) dfl))) = true
          · refine ⟨l.getD (i+1) dfl :: new', ?_, ?_, ?_⟩
            · rw [hnew']
              have : scanAcc an ngs cum acc (l.getD (i+1) dfl) = acc ++ [l.getD (i+1) dfl] := by
                rw [scanAcc, if_pos hsel]
              rw [this]
              simp
            · rw [hslice]
              simp only [List.reverse_cons]
              exact List.Sublist.append hsub' (List.Sublist.refl _)
            · intro e he
              rcases List.mem_cons.mp he with he | he
              · subst he
                simp only [Bool.and_eq_true] at hsel
                exact hsel.1
              · exact hpu' e he
          · refine ⟨new', ?_, ?_, ?_⟩
            · rw [hnew']
              have : scanAcc an ngs cum acc (l.getD (i+1) dfl) = acc := by
                rw [scanAcc, if_neg hsel]
              rw [this]
            · rw [hslice]
              exact hsub'.trans (List.sublist_append_left _ _)
            · exact hpu'

theorem scanBack_isSome (an : LocalAnalyzer) (ngs : Nat → Nat) (l : List Expr)
    (fp : Nat) (hfp : isPushable an ngs (l.getD fp dfl) = true) :
    ∀ i cum acc, fp ≤ i → (scanBack an ngs l fp i cum acc).isSome := by
  intro i
  induction i with
  | zero =>
      intro cum acc h
      have hfp0 : fp = 0 := by omega
      subst hfp0
      rw [scanBack, if_pos (by rw [Bool.and_eq_true] ; exact ⟨hfp, by decide⟩)]
      simp
  | succ i ih =>
      intro cum acc h
      rcases Nat.lt_or_ge i fp with hlt | hge
      · have hfp1 : fp = i + 1 := by omega
        subst hfp1
        rw [scanBack, if_pos (by rw [Bool.and_eq_true] ; exact ⟨hfp, by simp⟩)]
        simp
      · by_cases hg : (isPushable an ngs (l.getD (i+1) dfl) && decide (i + 1 = fp)) = true
        · rw [scanBack, if_pos hg]
          simp
        · rw [scanBack, if_neg hg]
          exact ih _ _ hge

theorem getD_reverse {l : List Expr} {m : Nat} (h : m < l.length) :
    l.reverse.getD m dfl = l.getD (l.length - 1 - m) dfl := by
  rw [getD_eq_getElem (by simpa using h), getD_eq_getElem (by omega)]
  rw [List.getElem_reverse]

/-! Correspondence of the compaction loop with the greedy matcher. -/

theorem compactLoop_skip (toPush : List Expr) :
    ∀ steps i skip l, skip ≤ toPush.length →
      (compactLoop toPush steps i skip l).1 =
        skip + greedySkip (vslice l i steps) (toPush.reverse.drop skip) := by
  intro steps
  induction steps with
  | zero =>
      intro i skip l hle
      simp [compactLoop, vslice, greedySkip]
  | succ steps ih =>
      intro i skip l hle
      by_cases hg : skip < toPush.length ∧
          l.getD i dfl = toPush.getD (toPush.length - 1 - skip) dfl
      · rw [compactLoop, if_pos hg]
        rw [ih (i+1) (skip+1) l (by omega)]
        have hcmp : toPush.reverse.getD skip dfl =
            toPush.getD (toPush.length - 1 - skip) dfl := getD_reverse hg.1
        have hdrop : toPush.reverse.drop skip =
            toPush.reverse.getD skip dfl :: toPush.reverse.drop (skip+1) := by
          rw [getD_eq_getElem (by simpa using hg.1)]
          exact List.drop_eq_getElem_cons (by simpa using hg.1)
        rw [vslice, hdrop, greedySkip, if_pos (hg.2.trans hcmp.symm)]
        omega
      · rw [compactLoop, if_neg hg]
        have hvs : vslice (if skip = 0 then l else l.set (i - skip) (l.getD i dfl)) (i+1) steps =
            vslice l (i+1) steps := by
          by_cases h0 : skip = 0
          · rw [if_pos h0]
          · rw [if_neg h0, vslice_set_of_lt (by omega)]
        rw [ih (i+1) skip _ hle, hvs, vslice]
        by_cases hsl : skip < toPush.length
        · have hx : l.getD i dfl ≠ toPush.getD (toPush.length - 1 - skip) dfl := by
            intro hc
            exact hg ⟨hsl, hc⟩
          have hcmp : toPush.reverse.getD skip dfl =
              toPush.getD (toPush.length - 1 - skip) dfl := getD_reverse hsl
          have hdrop : toPush.reverse.drop skip =
              toPush.reverse.getD skip dfl :: toPush.reverse.drop (skip+1) := by
            rw [getD_eq_getElem (by simpa using hsl)]
            exact List.drop_eq_getElem_cons (by simpa using hsl)
          rw [hdrop, greedySkip, if_neg (by rw [hcmp] ; exact hx)]
        · have hdrop : toPush.reverse.drop skip = [] :=
            List.drop_eq_nil_of_le (by simp ; omega)
          rw [hdrop]
          have : greedySkip (l.getD i dfl :: vslice l (i+1) steps) [] =
              greedySkip (vslice l (i+1) steps) [] := rfl
          rw [this]

theorem compactLoop_content (toPush L : List Expr) (fp pp : Nat) (hpp : pp < L.length) :
    ∀ steps i skip l K,
      i = fp + skip + K.length →
      steps = pp + 1 - i →
      i ≤ pp + 1 →
      skip ≤ toPush.length →
      (∀ m, m < K.length → l.getD (fp + m) dfl = K.getD m dfl) →
      (∀ j, j < fp → l.getD j dfl = L.getD j dfl) →
      (∀ j, i ≤ j → l.getD j dfl = L.getD j dfl) →
      l.length = L.length →
      (∀ m, m < (K ++ greedyKeep (vslice L i (pp + 1 - i)) (toPush.reverse.drop skip)).length →
          (compactLoop toPush steps i skip l).2.getD (fp + m) dfl =
          (K ++ greedyKeep (vslice L i (pp + 1 - i)) (toPush.reverse.drop skip)).getD m dfl) ∧
      (∀ j, j < fp → (compactLoop toPush steps i skip l).2.getD j dfl = L.getD j dfl) ∧
      (∀ j, pp + 1 ≤ j → (compactLoop toPush steps i skip l).2.getD j dfl = L.getD j dfl) ∧
      (compactLoop toPush steps i skip l).2.length = L.length := by
  intro steps
  induction steps with
  | zero =>
      intro i skip l K hi hsteps hipp hskip hK hleft hright hlen
      have hieq : i = pp + 1 := by omega
      subst hieq
      have hv : vslice L (pp+1) (pp + 1 - (pp+1)) = [] := by
        simp [vslice]
      rw [hv, greedyKeep]
      simp only [List.append_nil, compactLoop]
      exact ⟨hK, hleft, fun j hj => hright j (by omega), hlen⟩
  | succ steps ih =>
      intro i skip l K hi hsteps hipp hskip hK hleft hright hlen
      have hipp2 : i ≤ pp := by omega
      have hx : l.getD i dfl = L.getD i dfl := hright i (le_refl i)
      have hsteps2 : steps = pp + 1 - (i + 1) := by omega
      have hvL : vslice L i (pp + 1 - i) = L.getD i dfl :: vslice L (i+1) (pp + 1 - (i+1)) := by
        have h1 : pp + 1 - i = (pp + 1 - (i+1)) + 1 := by omega
        rw [h1, vslice]
      by_cases hg : skip < toPush.length ∧
          l.getD i dfl = toPush.getD (toPush.length - 1 - skip) dfl
      · -- matched: skipped element
        rw [compactLoop, if_pos hg]
        have hcmp : toPush.reverse.getD skip dfl =
            toPush.getD (toPush.length - 1 - skip) dfl := getD_reverse hg.1
        have hdrop : toPush.reverse.drop skip =
            toPush.reverse.getD skip dfl :: toPush.reverse.drop (skip+1) := by
          rw [getD_eq_getElem (by simpa using hg.1)]
          exact List.drop_eq_getElem_cons (by simpa using hg.1)
        have hgreedy : greedyKeep (vslice L i (pp + 1 - i)) (toPush.reverse.drop skip) =
            greedyKeep (vslice L (i+1) (pp + 1 - (i+1))) (toPush.reverse.drop (skip+1)) := by
          rw [hvL, hdrop, greedyKeep, if_pos (by rw [hcmp, ← hx] ; exact hg.2)]
        rw [hgreedy]
        exact ih (i+1) (skip+1) l K (by omega) hsteps2 (by omega) (by omega) hK hleft
          (fun j hj => hright j (by omega)) hlen
      · -- not matched: kept element, shifted left by skip
        rw [compactLoop, if_neg hg]
        have hstep : greedyKeep (vslice L i (pp + 1 - i)) (toPush.reverse.drop skip) =
            L.getD i dfl ::
              greedyKeep (vslice L (i+1) (pp + 1 - (i+1))) (toPush.reverse.drop skip) := by
          by_cases hsl : skip < toPush.length
          · have hcmp : toPush.reverse.getD skip dfl =
                toPush.getD (toPush.length - 1 - skip) dfl := getD_reverse hsl
            have hdrop : toPush.reverse.drop skip =
                toPush.reverse.getD skip dfl :: toPush.reverse.drop (skip+1) := by
              rw [getD_eq_getElem (by simpa using hsl)]
              exact List.drop_eq_getElem_cons (by simpa using hsl)
            have hne : L.getD i dfl ≠ toPush.reverse.getD skip dfl := by
              rw [hcmp, ← hx]
              intro hc
              exact hg ⟨hsl, hc⟩
            rw [hvL, hdrop, greedyKeep, if_neg hne, ← hdrop]
          · have hdrop : toPush.reverse.drop skip = [] :=
              List.drop_eq_nil_of_le (by simp ; omega)
            rw [hvL, hdrop, greedyKeep]
        rw [hstep]
        have hassoc : K ++ L.getD i dfl ::
            greedyKeep (vslice L (i+1) (pp + 1 - (i+1))) (toPush.reverse.drop skip) =
            (K ++ [L.getD i dfl]) ++
              greedyKeep (vslice L (i+1) (pp + 1 - (i+1))) (toPush.reverse.drop skip) := by
          simp
        rw [hassoc]
        set wpos := i - skip with hwpos
        have hwpos2 : wpos = fp + K.length := by omega
        set l2 := (if skip = 0 then l else l.set wpos (l.getD i dfl)) with hl2
        have hl2len : l2.length = L.length := by
          rw [hl2]
          by_cases h0 : skip = 0
          · rw [if_pos h0] ; exact hlen
          · rw [if_neg h0] ; simpa using hlen
        have hl2get : ∀ j, j ≠ wpos → l2.getD j dfl = l.getD j dfl := by
          intro j hj
          rw [hl2]
          by_cases h0 : skip = 0
          · rw [if_pos h0]
          · rw [if_neg h0, getD_set_ne hj]
        have hl2at : l2.getD wpos dfl = l.getD i dfl := by
          rw [hl2]
          by_cases h0 : skip = 0
          · rw [if_pos h0]
            congr 1
            omega
          · rw [if_neg h0, getD_set_self (by omega : wpos < l.length)]
        refine ih (i+1) skip l2 (K ++ [L.getD i dfl]) (by simp ; omega) hsteps2 (by omega)
          hskip ?_ ?_ ?_ hl2len
        · intro m hm
          simp only [List.length_append, List.length_cons, List.length_nil] at hm
          rcases Nat.lt_or_ge m K.length with hmK | hmK
          · rw [hl2get (fp + m) (by omega), hK m hmK, getD_append_left (by omega)]
          · have hmeq : m = K.length := by omega
            subst hmeq
            rw [← hwpos2, hl2at, hx, getD_append_right (le_refl _)]
            simp
        · intro j hj
          rw [hl2get j (by omega), hleft j hj]
        · intro j hj
          rw [hl2get j (by omega), hright j (by omega)]

theorem writeLoop_spec (toPush : List Expr) (pp : Nat) :
    ∀ steps i l, i + steps ≤ pp → pp < l.length →
      (∀ j, j < pp + 1 - (i + steps) → (writeLoop toPush pp steps i l).getD j dfl = l.getD j dfl) ∧
      (∀ j, pp - i < j → (writeLoop toPush pp steps i l).getD j dfl = l.getD j dfl) ∧
      (∀ m, m < steps →
        (writeLoop toPush pp steps i l).getD (pp - (i + m)) dfl = toPush.getD (i + m) dfl) ∧
      (writeLoop toPush pp steps i l).length = l.length := by
  intro steps
  induction steps with
  | zero =>
      intro i l hile hpp
      refine ⟨fun j hj => rfl, fun j hj => rfl, fun m hm => absurd hm (by omega), rfl⟩
  | succ steps ih =>
      intro i l hile hpp
      rw [writeLoop]
      set l2 := l.set (pp - i) (toPush.getD i dfl) with hl2
      have hlen2 : l2.length = l.length := by rw [hl2] ; simp
      obtain ⟨ihl, ihr, ihw, ihlen⟩ := ih (i+1) l2 (by omega) (by omega)
      have hget2 : ∀ j, j ≠ pp - i → l2.getD j dfl = l.getD j dfl := by
        intro j hj
        rw [hl2, getD_set_ne hj]
      refine ⟨?_, ?_, ?_, ?_⟩
      · intro j hj
        rw [ihl j (by omega), hget2 j (by omega)]
      · intro j hj
        rw [ihr j (by omega), hget2 j (by omega)]
      · intro m hm
        cases m with
        | zero =>
            rw [ihr (pp - (i + 0)) (by omega)]
            simp only [Nat.add_zero]
            rw [hl2, getD_set_self (by omega : pp - i < l.length)]
        | succ m =>
            have := ihw m (by omega)
            have harith : i + 1 + m = i + (m + 1) := by omega
            rw [harith] at this
            exact this
      · rw [ihlen, hlen2]

theorem vslice_mem {l : List Expr} {a n : Nat} {e : Expr} (h : e ∈ vslice l a n) :
    ∃ m, m < n ∧ e = l.getD (a + m) dfl := by
  induction n generalizing a with
  | zero => simp [vslice] at h
  | succ n ih =>
      rw [vslice] at h
      rcases List.mem_cons.mp h with h | h
      · exact ⟨0, by omega, by simpa using h⟩
      · obtain ⟨m, hm, he⟩ := ih h
        exact ⟨m + 1, by omega, by rw [he] ; congr 1 ; omega⟩

theorem getD_inj {l : List Expr} (hnd : l.Nodup) {p q : Nat} (hp : p < l.length)
    (hq : q < l.length) (h : l.getD p dfl = l.getD q dfl) : p = q := by
  rw [getD_eq_getElem hp, getD_eq_getElem hq] at h
  exact List.Nodup.getElem_inj_iff hnd |>.mp h

theorem getD_drop {l : List Expr} {a m : Nat} : (l.drop a).getD m dfl = l.getD (a + m) dfl := by
  rw [List.getD_eq_getElem?_getD, List.getD_eq_getElem?_getD, List.getElem?_drop]

theorem getD_take {l : List Expr} {n m : Nat} (h : m < n) :
    (l.take n).getD m dfl = l.getD m dfl := by
  rw [List.getD_eq_getElem?_getD, List.getD_eq_getElem?_getD, List.getElem?_take, if_pos h]

theorem toPush_sublist (an : LocalAnalyzer) (ngs : Nat → Nat) (l : List Expr)
    (fp pp : Nat) (cum : EffectAnalyzer) (tp : List Expr) (hfp : fp < pp)
    (hscan : scanBack an ngs l fp (pp - 1)
      (ignoreControlFlowTransfers (effWalk emptyEffects (l.getD pp dfl))) [] =
        some (cum, tp)) :
    List.Sublist tp.reverse (vslice l fp (pp - fp)) ∧
      ∀ e, e ∈ tp → isPushable an ngs e = true := by
  obtain ⟨new, hnew, hsub, hpush⟩ := scanBack_sound an ngs l fp (pp - 1) _ _ _ _ hscan
  have htpn : tp = new := by simpa using hnew
  subst htpn
  have harith : pp - 1 + 1 - fp = pp - fp := by omega
  rw [harith] at hsub
  exact ⟨hsub, hpush⟩

theorem getD_pp_not_mem {an : LocalAnalyzer} {ngs : Nat → Nat} {l : List Expr}
    {fp pp : Nat} {cum : EffectAnalyzer} {tp : List Expr} (hfp : fp < pp)
    (hpp : pp < l.length) (hnd : l.Nodup)
    (hscan : scanBack an ngs l fp (pp - 1)
      (ignoreControlFlowTransfers (effWalk emptyEffects (l.getD pp dfl))) [] =
        some (cum, tp)) :
    ¬ l.getD pp dfl ∈ tp := by
  intro hmem
  obtain ⟨hsub, -⟩ := toPush_sublist an ngs l fp pp cum tp hfp hscan
  have hmem2 : l.getD pp dfl ∈ vslice l fp (pp - fp) :=
    hsub.subset (by simpa using hmem)
  obtain ⟨m, hm, he⟩ := vslice_mem hmem2
  have := getD_inj hnd hpp (by omega : fp + m < l.length) he
  omega

theorem optimizeSegment_eq (an : LocalAnalyzer) (ngs : Nat → Nat) (l : List Expr)
    (fp pp : Nat) (cum : EffectAnalyzer) (tp : List Expr)
    (hfp : fp < pp) (hpp : pp < l.length) (hnd : l.Nodup)
    (hscan : scanBack an ngs l fp (pp - 1)
      (ignoreControlFlowTransfers (effWalk emptyEffects (l.getD pp dfl))) [] =
        some (cum, tp)) :
    optimizeSegment an ngs fp pp l =
      .ok (pp + 1 - tp.length,
        l.take fp ++ (segOf l fp pp).filter (fun e => decide (¬ e ∈ tp)) ++
          tp.reverse ++ l.drop (pp + 1)) := by
  obtain ⟨hsub0, hpush⟩ := toPush_sublist an ngs l fp pp cum tp hfp hscan
  have hbig : vslice l fp (pp + 1 - fp) = vslice l fp (pp - fp) ++ [l.getD pp dfl] := by
    have h1 : pp + 1 - fp = (pp - fp) + 1 := by omega
    have h2 : fp + (pp - fp) = pp := by omega
    rw [h1, vslice_concat, h2]
  have hsub : List.Sublist tp.reverse (vslice l fp (pp + 1 - fp)) := by
    rw [hbig]
    exact hsub0.trans (List.sublist_append_left _ _)
  have hbig_eq : vslice l fp (pp + 1 - fp) = segOf l fp pp :=
    vslice_eq_drop_take (by omega)
  have hnd_big : (vslice l fp (pp + 1 - fp)).Nodup := by
    rw [hbig_eq, segOf]
    exact ((List.take_sublist _ _).trans (List.drop_sublist _ _)).nodup hnd
  have htplen : tp.length ≤ pp - fp := by
    have := hsub0.length_le
    simpa [vslice_length] using this
  have hseg_drop : segOf l fp pp ++ l.drop (pp + 1) = l.drop fp := by
    rw [segOf]
    have hdd : (l.drop fp).drop (pp + 1 - fp) = l.drop (pp + 1) := by
      rw [List.drop_drop]
      congr 1
      omega
    rw [← hdd]
    exact List.take_append_drop _ _
  have hF : greedyKeep (vslice l fp (pp + 1 - fp)) tp.reverse =
      (segOf l fp pp).filter (fun e => decide (¬ e ∈ tp)) := by
    rw [greedyKeep_of_nodup hsub hnd_big, hbig_eq]
    apply List.filter_congr
    intro e he
    simp [List.mem_reverse]
  have hFlen0 : (greedyKeep (vslice l fp (pp + 1 - fp)) tp.reverse).length + tp.length =
      pp + 1 - fp := by
    have := greedyKeep_length hsub
    simpa [vslice_length] using this
  have hFl : ((segOf l fp pp).filter (fun e => decide (¬ e ∈ tp))).length + tp.length =
      pp + 1 - fp := by
    rw [← hF]
    exact hFlen0
  rw [optimizeSegment, if_neg (not_not_intro hfp), hscan]
  show (if tp.length = 0 then Except.ok (pp + 1, l)
      else
        if (compactLoop tp (pp + 1 - fp) fp 0 l).1 = tp.length then
          Except.ok (pp + 1 - tp.length,
            writeLoop tp pp tp.length 0 (compactLoop tp (pp + 1 - fp) fp 0 l).2)
        else Except.error (compactLoop tp (pp + 1 - fp) fp 0 l).2) = _
  by_cases htp0 : tp.length = 0
  · rw [if_pos htp0]
    have htpnil : tp = [] := List.length_eq_zero.mp htp0
    subst htpnil
    have hfilter : (segOf l fp pp).filter (fun e => decide (¬ e ∈ ([] : List Expr))) =
        segOf l fp pp := by
      apply List.filter_eq_self.mpr
      intro e he
      simp
    rw [hfilter]
    simp only [List.reverse_nil, List.append_nil, List.length_nil, Nat.sub_zero]
    rw [List.append_assoc, hseg_drop, List.take_append_drop]
  · rw [if_neg htp0]
    have hskip : (compactLoop tp (pp + 1 - fp) fp 0 l).1 = tp.length := by
      rw [compactLoop_skip tp (pp + 1 - fp) fp 0 l (by omega)]
      simp only [List.drop_zero]
      rw [greedySkip_of_sublist hsub]
      simp
    rw [if_pos hskip]
    have hcontent := compactLoop_content tp l fp pp hpp (pp + 1 - fp) fp 0 l []
      (by simp) rfl (by omega) (by omega)
      (by intro m hm ; simp at hm)
      (by intro j hj ; rfl)
      (by intro j hj ; rfl) rfl
    simp only [List.drop_zero, List.nil_append] at hcontent
    obtain ⟨hcK, hcL, hcR, hcLen⟩ := hcontent
    rw [hF] at hcK
    obtain ⟨hwL, hwR, hwW, hwLen⟩ :=
      writeLoop_spec tp pp tp.length 0 (compactLoop tp (pp + 1 - fp) fp 0 l).2
        (by omega) (by rw [hcLen] ; exact hpp)
    have htake_len : (l.take fp).length = fp := by
      simp
      omega
    have hRlen : (l.take fp ++ (segOf l fp pp).filter (fun e => decide (¬ e ∈ tp)) ++
        tp.reverse ++ l.drop (pp + 1)).length = l.length := by
      simp only [List.length_append, htake_len, List.length_reverse, List.length_drop]
      omega
    have hresLen :
        (writeLoop tp pp tp.length 0 (compactLoop tp (pp + 1 - fp) fp 0 l).2).length =
          l.length := by
      rw [hwLen, hcLen]
    have hpoint : ∀ j, j < l.length →
        (writeLoop tp pp tp.length 0 (compactLoop tp (pp + 1 - fp) fp 0 l).2).getD j dfl =
          (l.take fp ++ (segOf l fp pp).filter (fun e => decide (¬ e ∈ tp)) ++
            tp.reverse ++ l.drop (pp + 1)).getD j dfl := by
      intro j hj
      have hlen2 : (l.take fp ++ (segOf l fp pp).filter (fun e => decide (¬ e ∈ tp))).length =
          fp + ((segOf l fp pp).filter (fun e => decide (¬ e ∈ tp))).length := by
        rw [List.length_append, htake_len]
      have hlen3 : (l.take fp ++ (segOf l fp pp).filter (fun e => decide (¬ e ∈ tp)) ++
          tp.reverse).length =
          fp + ((segOf l fp pp).filter (fun e => decide (¬ e ∈ tp))).length + tp.length := by
        rw [List.length_append, hlen2, List.length_reverse]
      rcases Nat.lt_or_ge j fp with hcase | hge
      · rw [hwL j (by omega), hcL j hcase]
        rw [getD_append_left (by rw [hlen3] ; omega),
          getD_append_left (by rw [hlen2] ; omega),
          getD_append_left (by rw [htake_len] ; omega),
          getD_take (by omega)]
      · rcases Nat.lt_or_ge j
            (fp + ((segOf l fp pp).filter (fun e => decide (¬ e ∈ tp))).length) with
              hcase2 | hge2
        · rw [hwL j (by omega)]
          have hKm := hcK (j - fp) (by omega)
          have harr : fp + (j - fp) = j := by omega
          rw [harr] at hKm
          rw [hKm]
          rw [getD_append_left (by rw [hlen3] ; omega),
            getD_append_left (by rw [hlen2] ; omega),
            getD_append_right (by rw [htake_len] ; omega)]
          rw [htake_len]
        · rcases Nat.lt_or_ge pp j with hcase3 | hle3
          · rw [hwR j (by omega), hcR j (by omega)]
            rw [getD_append_right (by rw [hlen3] ; omega)]
            rw [hlen3, getD_drop]
            congr 1
            omega
          · have hm := hwW (pp - j) (by omega)
            have harr : 0 + (pp - j) = pp - j := by omega
            have harr2 : pp - (pp - j) = j := by omega
            rw [harr, harr2] at hm
            rw [hm]
            rw [getD_append_left (by rw [hlen3] ; omega),
              getD_append_right (by rw [hlen2] ; omega)]
            rw [hlen2]
            rw [getD_reverse (by omega :
              j - (fp + ((segOf l fp pp).filter (fun e => decide (¬ e ∈ tp))).length) <
                tp.length)]
            congr 1
            omega
    congr 1
    refine Prod.ext rfl ?_
    apply List.ext_getElem (by rw [hresLen, hRlen])
    intro j h1 h2
    have hjl : j < l.length := by rw [hresLen] at h1 ; exact h1
    have := hpoint j hjl
    rw [getD_eq_getElem h1, getD_eq_getElem h2] at this
    exact this

/-! Error and success behaviour of the segment optimizer. -/

theorem optimizeSegment_error (an : LocalAnalyzer) (ngs : Nat → Nat) (fp pp : Nat)
    (l err : List Expr) (h : optimizeSegment an ngs fp pp l = .error err) :
    err = l := by
  rw [optimizeSegment] at h
  by_cases hfp : fp < pp
  · rw [if_neg (not_not_intro hfp)] at h
    rcases hscan : scanBack an ngs l fp (pp - 1)
        (ignoreControlFlowTransfers (effWalk emptyEffects (l.getD pp dfl))) [] with
        _ | ⟨cum, tp⟩
    · rw [hscan] at h
      injection h with h2
      exact h2.symm
    · rw [hscan] at h
      have h2 : (if tp.length = 0 then (Except.ok (pp + 1, l) : Except (List Expr) (Nat × List Expr))
          else
            if (compactLoop tp (pp + 1 - fp) fp 0 l).1 = tp.length then
              Except.ok (pp + 1 - tp.length,
                writeLoop tp pp tp.length 0 (compactLoop tp (pp + 1 - fp) fp 0 l).2)
            else Except.error (compactLoop tp (pp + 1 - fp) fp 0 l).2) = Except.error err := h
      by_cases htp0 : tp.length = 0
      · rw [if_pos htp0] at h2
        exact absurd h2 (by simp)
      · rw [if_neg htp0] at h2
        obtain ⟨hsub0, hpush⟩ := toPush_sublist an ngs l fp pp cum tp hfp hscan
        have hbigv : vslice l fp (pp + 1 - fp) = vslice l fp (pp - fp) ++ [l.getD pp dfl] := by
          have ha : pp + 1 - fp = (pp - fp) + 1 := by omega
          have hb : fp + (pp - fp) = pp := by omega
          rw [ha, vslice_concat, hb]
        have hsub : List.Sublist tp.reverse (vslice l fp (pp + 1 - fp)) := by
          rw [hbigv]
          exact hsub0.trans (List.sublist_append_left _ _)
        have hskip : (compactLoop tp (pp + 1 - fp) fp 0 l).1 = tp.length := by
          rw [compactLoop_skip tp (pp + 1 - fp) fp 0 l (by omega)]
          simp only [List.drop_zero]
          rw [greedySkip_of_sublist hsub]
          simp
        rw [if_pos hskip] at h2
        exact absurd h2 (by simp)
  · rw [if_pos hfp] at h
    injection h with h2
    exact h2.symm

theorem optimizeSegment_isOk (an : LocalAnalyzer) (ngs : Nat → Nat) (fp pp : Nat)
    (l : List Expr) (hfp : fp < pp) (hpu : isPushable an ngs (l.getD fp dfl) = true) :
    ∃ r, optimizeSegment an ngs fp pp l = .ok r := by
  have hsome := scanBack_isSome an ngs l fp hpu (pp - 1)
    (ignoreControlFlowTransfers (effWalk emptyEffects (l.getD pp dfl))) [] (by omega)
  rcases hscan : scanBack an ngs l fp (pp - 1)
      (ignoreControlFlowTransfers (effWalk emptyEffects (l.getD pp dfl))) [] with
      _ | ⟨cum, tp⟩
  · rw [hscan] at hsome
    simp at hsome
  · rw [optimizeSegment, if_neg (not_not_intro hfp), hscan]
    show ∃ r, (if tp.length = 0 then (Except.ok (pp + 1, l) : Except (List Expr) (Nat × List Expr))
        else
          if (compactLoop tp (pp + 1 - fp) fp 0 l).1 = tp.length then
            Except.ok (pp + 1 - tp.length,
              writeLoop tp pp tp.length 0 (compactLoop tp (pp + 1 - fp) fp 0 l).2)
          else Except.error (compactLoop tp (pp + 1 - fp) fp 0 l).2) = Except.ok r
    by_cases htp0 : tp.length = 0
    · rw [if_pos htp0]
      exact ⟨_, rfl⟩
    · rw [if_neg htp0]
      obtain ⟨hsub0, hpush⟩ := toPush_sublist an ngs l fp pp cum tp hfp hscan
      have hbigv : vslice l fp (pp + 1 - fp) = vslice l fp (pp - fp) ++ [l.getD pp dfl] := by
        have ha : pp + 1 - fp = (pp - fp) + 1 := by omega
        have hb : fp + (pp - fp) = pp := by omega
        rw [ha, vslice_concat, hb]
      have hsub : List.Sublist tp.reverse (vslice l fp (pp + 1 - fp)) := by
        rw [hbigv]
        exact hsub0.trans (List.sublist_append_left _ _)
      have hskip : (compactLoop tp (pp + 1 - fp) fp 0 l).1 = tp.length := by
        rw [compactLoop_skip tp (pp + 1 - fp) fp 0 l (by omega)]
        simp only [List.drop_zero]
        rw [greedySkip_of_sublist hsub]
        simp
      rw [if_pos hskip]
      exact ⟨_, rfl⟩

theorem optimizeSegment_ok_facts (an : LocalAnalyzer) (ngs : Nat → Nat) (fp pp : Nat)
    (l : List Expr) (i2 : Nat) (l2 : List Expr) (hpp : pp < l.length)
    (h : optimizeSegment an ngs fp pp l = .ok (i2, l2)) :
    l2.length = l.length ∧ fp < pp ∧ fp < i2 ∧ i2 ≤ pp + 1 ∧
      (∀ j, pp < j → l2.getD j dfl = l.getD j dfl) ∧
      (∀ j, i2 ≤ j → j ≤ pp → isPushPoint (l2.getD j dfl) = false) := by
  rw [optimizeSegment] at h
  by_cases hfp : fp < pp
  · rw [if_neg (not_not_intro hfp)] at h
    rcases hscan : scanBack an ngs l fp (pp - 1)
        (ignoreControlFlowTransfers (effWalk emptyEffects (l.getD pp dfl))) [] with
        _ | ⟨cum, tp⟩
    · rw [hscan] at h
      exact absurd h (by simp)
    · rw [hscan] at h
      have h2 : (if tp.length = 0 then (Except.ok (pp + 1, l) : Except (List Expr) (Nat × List Expr))
          else
            if (compactLoop tp (pp + 1 - fp) fp 0 l).1 = tp.length then
              Except.ok (pp + 1 - tp.length,
                writeLoop tp pp tp.length 0 (compactLoop tp (pp + 1 - fp) fp 0 l).2)
            else Except.error (compactLoop tp (pp + 1 - fp) fp 0 l).2) = Except.ok (i2, l2) := h
      obtain ⟨hsub0, hpush⟩ := toPush_sublist an ngs l fp pp cum tp hfp hscan
      have htplen : tp.length ≤ pp - fp := by
        have := hsub0.length_le
        simpa [vslice_length] using this
      by_cases htp0 : tp.length = 0
      · rw [if_pos htp0] at h2
        injection h2 with h3
        injection h3 with h4 h5
        subst h4
        subst h5
        exact ⟨rfl, hfp, by omega, by omega, fun j hj => rfl, fun j hj1 hj2 => by omega⟩
      · rw [if_neg htp0] at h2
        have hbigv : vslice l fp (pp + 1 - fp) = vslice l fp (pp - fp) ++ [l.getD pp dfl] := by
          have ha : pp + 1 - fp = (pp - fp) + 1 := by omega
          have hb : fp + (pp - fp) = pp := by omega
          rw [ha, vslice_concat, hb]
        have hsub : List.Sublist tp.reverse (vslice l fp (pp + 1 - fp)) := by
          rw [hbigv]
          exact hsub0.trans (List.sublist_append_left _ _)
        have hskip : (compactLoop tp (pp + 1 - fp) fp 0 l).1 = tp.length := by
          rw [compactLoop_skip tp (pp + 1 - fp) fp 0 l (by omega)]
          simp only [List.drop_zero]
          rw [greedySkip_of_sublist hsub]
          simp
        rw [if_pos hskip] at h2
        injection h2 with h3
        injection h3 with h4 h5
        have hcontent := compactLoop_content tp l fp pp hpp (pp + 1 - fp) fp 0 l []
          (by simp) rfl (by omega) (by omega)
          (by intro m hm ; simp at hm)
          (by intro j hj ; rfl)
          (by intro j hj ; rfl) rfl
        obtain ⟨hcK, hcL, hcR, hcLen⟩ := hcontent
        obtain ⟨hwL, hwR, hwW, hwLen⟩ :=
          writeLoop_spec tp pp tp.length 0 (compactLoop tp (pp + 1 - fp) fp 0 l).2
            (by omega) (by rw [hcLen] ; exact hpp)
        subst h4
        subst h5
        refine ⟨by rw [hwLen, hcLen], hfp, by omega, by omega, ?_, ?_⟩
        · intro j hj
          rw [hwR j (by omega), hcR j (by omega)]
        · intro j hj1 hj2
          have hm := hwW (pp - j) (by omega)
          have harr : 0 + (pp - j) = pp - j := by omega
          have harr2 : pp - (pp - j) = j := by omega
          rw [harr, harr2] at hm
          rw [hm]
          have hmem : tp.getD (pp - j) dfl ∈ tp := by
            rw [getD_eq_getElem (by omega : pp - j < tp.length)]
            exact List.getElem_mem _
          exact isPushPoint_of_pushable (hpush _ hmem)
  · rw [if_pos hfp] at h
    exact absurd h (by simp)

theorem ppCountGo_le (l : List Expr) : ∀ steps i, ppCountGo l steps i ≤ steps := by
  intro steps
  induction steps with
  | zero => intro i ; simp [ppCountGo]
  | succ steps ih =>
      intro i
      rw [ppCountGo]
      have := ih (i+1)
      by_cases h : isPushPoint (l.getD i dfl) = true
      · rw [if_pos h]
        omega
      · rw [if_neg h]
        omega

theorem ppCountGo_split (l : List Expr) :
    ∀ s1 s2 i, ppCountGo l (s1 + s2) i = ppCountGo l s1 i + ppCountGo l s2 (i + s1) := by
  intro s1
  induction s1 with
  | zero => intro s2 i ; simp [ppCountGo]
  | succ s1 ih =>
      intro s2 i
      have harr : s1 + 1 + s2 = (s1 + s2) + 1 := by omega
      rw [harr, ppCountGo, ppCountGo, ih s2 (i+1)]
      have harr2 : i + 1 + s1 = i + (s1 + 1) := by omega
      rw [harr2]
      omega

theorem ppCountGo_congr (l1 l2 : List Expr) :
    ∀ steps i, (∀ j, i ≤ j → j < i + steps → l1.getD j dfl = l2.getD j dfl) →
      ppCountGo l1 steps i = ppCountGo l2 steps i := by
  intro steps
  induction steps with
  | zero => intro i h ; rfl
  | succ steps ih =>
      intro i h
      rw [ppCountGo, ppCountGo, h i (by omega) (by omega),
        ih (i+1) (fun j hj1 hj2 => h j (by omega) (by omega))]

theorem ppCountGo_zero (l : List Expr) :
    ∀ steps i, (∀ j, i ≤ j → j < i + steps → isPushPoint (l.getD j dfl) = false) →
      ppCountGo l steps i = 0 := by
  intro steps
  induction steps with
  | zero => intro i h ; rfl
  | succ steps ih =>
      intro i h
      rw [ppCountGo, h i (by omega) (by omega),
        ih (i+1) (fun j hj1 hj2 => h j (by omega) (by omega))]
      simp

theorem pusherMeasure_step (l : List Expr) (relevant i : Nat) (h : i < relevant) :
    pusherMeasure l relevant (i + 1) < pusherMeasure l relevant i := by
  rw [pusherMeasure, pusherMeasure]
  have harr : relevant - i = (relevant - (i + 1)) + 1 := by omega
  rw [harr]
  have hsplit : ppCountGo l ((relevant - (i+1)) + 1) i =
      ppCountGo l 1 i + ppCountGo l (relevant - (i+1)) (i + 1) := by
    have : (relevant - (i+1)) + 1 = 1 + (relevant - (i+1)) := by omega
    rw [this, ppCountGo_split l 1 (relevant - (i+1)) i]
  rw [hsplit]
  have hmono : ppCountGo l (relevant - (i+1)) (i+1) ≤
      ppCountGo l 1 i + ppCountGo l (relevant - (i+1)) (i+1) := by omega
  have := Nat.mul_le_mul_left (l.length + 1) hmono
  omega

theorem pusherMeasure_push (an : LocalAnalyzer) (ngs : Nat → Nat) (l l2 : List Expr)
    (relevant fp i i2 : Nat) (hrel : relevant < l.length) (hi : i < relevant)
    (hppt : isPushPoint (l.getD i dfl) = true)
    (h : optimizeSegment an ngs fp i l = .ok (i2, l2)) :
    pusherMeasure l2 relevant i2 < pusherMeasure l relevant i := by
  obtain ⟨hlen, hfp, hfpi2, hi2, hsuf, hnopp⟩ :=
    optimizeSegment_ok_facts an ngs fp i l i2 l2 (by omega) h
  rw [pusherMeasure, pusherMeasure, hlen]
  have hs1 : relevant - i2 = (i + 1 - i2) + (relevant - (i + 1)) := by omega
  rw [hs1, ppCountGo_split]
  have hpart1 : ppCountGo l2 (i + 1 - i2) i2 = 0 := by
    apply ppCountGo_zero
    intro j hj1 hj2
    exact hnopp j hj1 (by omega)
  have harr : i2 + (i + 1 - i2) = i + 1 := by omega
  rw [harr]
  have hpart2 : ppCountGo l2 (relevant - (i+1)) (i+1) =
      ppCountGo l (relevant - (i+1)) (i+1) := by
    apply ppCountGo_congr
    intro j hj1 hj2
    exact hsuf j (by omega)
  have hsum : ppCountGo l2 (i + 1 - i2) i2 + ppCountGo l2 (relevant - (i+1)) (i+1) =
      ppCountGo l (relevant - (i+1)) (i+1) := by
    rw [hpart1, hpart2, Nat.zero_add]
  rw [hsum]
  have hold : relevant - i = 1 + (relevant - (i + 1)) := by omega
  rw [hold, ppCountGo_split]
  have hone : ppCountGo l 1 i = 1 := by
    rw [ppCountGo, ppCountGo, hppt]
    simp
  rw [hone]
  have harr2 : i + 1 = i + 1 := rfl
  have hK : relevant - i2 ≤ relevant := by omega
  have hKlt : relevant < l.length + 1 := by omega
  have hexp : (l.length + 1) * (1 + ppCountGo l (relevant - (i+1)) (i+1)) =
      (l.length + 1) + (l.length + 1) * ppCountGo l (relevant - (i+1)) (i+1) := by
    ring
  rw [hexp]
  omega

theorem pusherLoop_zero (an : LocalAnalyzer) (ngs : Nat → Nat) (relevant i : Nat)
    (fpSt : Option Nat) (l : List Expr) :
    pusherLoop an ngs relevant 0 i fpSt l = .outOfFuel := rfl

theorem pusherLoop_succ_none (an : LocalAnalyzer) (ngs : Nat → Nat) (relevant fuel i : Nat)
    (l : List Expr) :
    pusherLoop an ngs relevant (fuel+1) i none l =
      if i < relevant then
        (if isPushable an ngs (l.getD i dfl) then
          pusherLoop an ngs relevant fuel (i+1) (some i) l
        else pusherLoop an ngs relevant fuel (i+1) none l)
      else .ok l := rfl

theorem pusherLoop_succ_some (an : LocalAnalyzer) (ngs : Nat → Nat) (relevant fuel i fp : Nat)
    (l : List Expr) :
    pusherLoop an ngs relevant (fuel+1) i (some fp) l =
      if i < relevant then
        (if isPushPoint (l.getD i dfl) then
          match optimizeSegment an ngs fp i l with
          | .ok (i', l') => pusherLoop an ngs relevant fuel i' none l'
          | .error _ => .assertFail
        else pusherLoop an ngs relevant fuel (i+1) (some fp) l)
      else .ok l := rfl

theorem pusherLoop_no_fuel (an : LocalAnalyzer) (ngs : Nat → Nat) (relevant : Nat) :
    ∀ fuel i fpSt l,
      (relevant < l.length ∨ relevant = 0) →
      (∀ j, fpSt = some j → j < i ∧ isPushable an ngs (l.getD j dfl) = true) →
      pusherMeasure l relevant i < fuel →
      pusherLoop an ngs relevant fuel i fpSt l ≠ .outOfFuel := by
  intro fuel
  induction fuel with
  | zero => intro i fpSt l hrel hinv hmu ; omega
  | succ fuel ih =>
      intro i fpSt l hrel hinv hmu
      cases fpSt with
      | none =>
          rw [pusherLoop_succ_none]
          by_cases hi : i < relevant
          · rw [if_pos hi]
            by_cases hpu : isPushable an ngs (l.getD i dfl) = true
            · rw [if_pos hpu]
              exact ih (i+1) (some i) l hrel
                (fun j hj => by
                  injection hj with hj2
                  subst hj2
                  exact ⟨by omega, hpu⟩)
                (by have := pusherMeasure_step l relevant i hi ; omega)
            · rw [if_neg hpu]
              exact ih (i+1) none l hrel (fun j hj => by simp at hj)
                (by have := pusherMeasure_step l relevant i hi ; omega)
          · rw [if_neg hi]
            intro hc
            exact PRes.noConfusion hc
      | some fp =>
          rw [pusherLoop_succ_some]
          by_cases hi : i < relevant
          · rw [if_pos hi]
            have hrel2 : relevant < l.length := by
              rcases hrel with hrel | hrel
              · exact hrel
              · omega
            by_cases hppt : isPushPoint (l.getD i dfl) = true
            · rw [if_pos hppt]
              rcases hseg : optimizeSegment an ngs fp i l with err | ⟨i2, l2⟩
              · intro hc
                exact PRes.noConfusion hc
              · have hfacts := optimizeSegment_ok_facts an ngs fp i l i2 l2 (by omega) hseg
                exact ih i2 none l2 (by omega)
                  (fun j hj => by simp at hj)
                  (by
                    have := pusherMeasure_push an ngs l l2 relevant fp i i2 hrel2 hi hppt hseg
                    omega)
            · rw [if_neg hppt]
              exact ih (i+1) (some fp) l hrel
                (fun j hj => by
                  injection hj with hj2
                  subst hj2
                  obtain ⟨h1, h2⟩ := hinv fp rfl
                  exact ⟨by omega, h2⟩)
                (by have := pusherMeasure_step l relevant i hi ; omega)
          · rw [if_neg hi]
            intro hc
            exact PRes.noConfusion hc

theorem pusherLoop_no_assert (an : LocalAnalyzer) (ngs : Nat → Nat) (relevant : Nat) :
    ∀ fuel i fpSt l,
      (∀ j, fpSt = some j → j < i ∧ isPushable an ngs (l.getD j dfl) = true) →
      pusherLoop an ngs relevant fuel i fpSt l ≠ .assertFail := by
  intro fuel
  induction fuel with
  | zero =>
      intro i fpSt l hinv
      rw [pusherLoop_zero]
      intro hc
      exact PRes.noConfusion hc
  | succ fuel ih =>
      intro i fpSt l hinv
      cases fpSt with
      | none =>
          rw [pusherLoop_succ_none]
          by_cases hi : i < relevant
          · rw [if_pos hi]
            by_cases hpu : isPushable an ngs (l.getD i dfl) = true
            · rw [if_pos hpu]
              exact ih (i+1) (some i) l
                (fun j hj => by
                  injection hj with hj2
                  subst hj2
                  exact ⟨by omega, hpu⟩)
            · rw [if_neg hpu]
              exact ih (i+1) none l (fun j hj => by simp at hj)
          · rw [if_neg hi]
            intro hc
            exact PRes.noConfusion hc
      | some fp =>
          rw [pusherLoop_succ_some]
          by_cases hi : i < relevant
          · rw [if_pos hi]
            by_cases hppt : isPushPoint (l.getD i dfl) = true
            · rw [if_pos hppt]
              obtain ⟨hfpi, hfpu⟩ := hinv fp rfl
              obtain ⟨⟨i2, l2⟩, hr⟩ := optimizeSegment_isOk an ngs fp i l hfpi hfpu
              rw [hr]
              exact ih i2 none l2 (fun j hj => by simp at hj)
            · rw [if_neg hppt]
              exact ih (i+1) (some fp) l
                (fun j hj => by
                  injection hj with hj2
                  subst hj2
                  obtain ⟨h1, h2⟩ := hinv fp rfl
                  exact ⟨by omega, h2⟩)
          · rw [if_neg hi]
            intro hc
            exact PRes.noConfusion hc

/-- Claim C7: the outer scan of the block pusher terminates: the explicit
fuel bound — one unit per forward step plus one block of units per push
point, reflecting that segment optimization is a single linear pass and each
pushed element is re-scanned only after its push point has been consumed —
is never exhausted, for any block list and analyzer state. -/
theorem runPusher_terminates (an : LocalAnalyzer) (ngs : Nat → Nat) (l : List Expr) :
    runPusher an ngs l ≠ PRes.outOfFuel := by
  rw [runPusher]
  apply pusherLoop_no_fuel
  · omega
  · intro j hj
    exact absurd hj (by simp)
  · have hle := ppCountGo_le l (l.length - 1) 0
    have hmul := Nat.mul_le_mul_left (l.length + 1) hle
    have h0 : l.length - 1 - 0 = l.length - 1 := rfl
    rw [pusherMeasure, pusherFuel, h0]
    omega

/-- Claim C8: the three assertions of the segment optimizer (entry with
`firstPushable < pushPoint`, the backward scan never running past index
zero, and the compaction skip count matching the number of selected
instructions) hold on every execution the block pusher performs: the pusher
never returns an assertion failure. -/
theorem runPusher_no_assert (an : LocalAnalyzer) (ngs : Nat → Nat) (l : List Expr) :
    runPusher an ngs l ≠ PRes.assertFail := by
  rw [runPusher]
  apply pusherLoop_no_assert
  intro j hj
  exact absurd hj (by simp)

/-! Permutation property of the rewriting. -/

theorem filter_mem_of_sublist {t s : List Expr} (h : List.Sublist t s) (hnd : s.Nodup) :
    s.filter (fun e => decide (e ∈ t)) = t := by
  induction s generalizing t with
  | nil => cases h ; rfl
  | cons x xs ih =>
      have hx : ¬ x ∈ xs := by
        simp only [List.nodup_cons] at hnd
        exact hnd.1
      have hndx : xs.Nodup := by
        simp only [List.nodup_cons] at hnd
        exact hnd.2
      cases t with
      | nil =>
          simp
      | cons y t' =>
          by_cases hxy : x = y
          · subst hxy
            have ht : List.Sublist t' xs := by
              cases h with
              | cons _ h2 => exact (List.sublist_cons_self x t').trans h2
              | cons₂ _ h2 => exact h2
            rw [List.filter_cons]
            have hxmem : (decide (x ∈ x :: t')) = true := by simp
            rw [hxmem]
            simp only [if_true]
            congr 1
            have hcongr : xs.filter (fun e => decide (e ∈ x :: t')) =
                xs.filter (fun e => decide (e ∈ t')) := by
              apply List.filter_congr
              intro e he
              have hex : e ≠ x := fun hc => hx (hc ▸ he)
              simp [hex]
            rw [hcongr]
            exact ih ht hndx
          · have ht : List.Sublist (y :: t') xs := by
              cases h with
              | cons _ h2 => exact h2
              | cons₂ _ h2 => exact absurd rfl hxy
            rw [List.filter_cons]
            have hxmem : (decide (x ∈ y :: t')) = false := by
              simp only [decide_eq_false_iff_not]
              intro hc
              exact hx (ht.subset hc)
            rw [hxmem]
            simp only [Bool.false_eq_true, if_false]
            exact ih ht hndx

theorem optimizeSegment_perm (an : LocalAnalyzer) (ngs : Nat → Nat) (fp pp : Nat)
    (l : List Expr) (i2 : Nat) (l2 : List Expr) (hpp : pp < l.length) (hnd : l.Nodup)
    (h : optimizeSegment an ngs fp pp l = .ok (i2, l2)) : List.Perm l2 l := by
  by_cases hfp : fp < pp
  · rcases hscan : scanBack an ngs l fp (pp - 1)
        (ignoreControlFlowTransfers (effWalk emptyEffects (l.getD pp dfl))) [] with
        _ | ⟨cum, tp⟩
    · rw [optimizeSegment, if_neg (not_not_intro hfp), hscan] at h
      exact absurd h (by simp)
    · have heq := optimizeSegment_eq an ngs l fp pp cum tp hfp hpp hnd hscan
      rw [h] at heq
      injection heq with heq2
      injection heq2 with heq3 heq4
      obtain ⟨hsub0, hpush⟩ := toPush_sublist an ngs l fp pp cum tp hfp hscan
      have hbigv : vslice l fp (pp + 1 - fp) = vslice l fp (pp - fp) ++ [l.getD pp dfl] := by
        have ha : pp + 1 - fp = (pp - fp) + 1 := by omega
        have hb : fp + (pp - fp) = pp := by omega
        rw [ha, vslice_concat, hb]
      have hsub : List.Sublist tp.reverse (vslice l fp (pp + 1 - fp)) := by
        rw [hbigv]
        exact hsub0.trans (List.sublist_append_left _ _)
      have hbig_eq : vslice l fp (pp + 1 - fp) = segOf l fp pp :=
        vslice_eq_drop_take (by omega)
      have hnd_seg : (segOf l fp pp).Nodup := by
        rw [segOf]
        exact ((List.take_sublist _ _).trans (List.drop_sublist _ _)).nodup hnd
      have hsubseg : List.Sublist tp.reverse (segOf l fp pp) := by
        rw [← hbig_eq]
        exact hsub
      have hpermseg :
          List.Perm ((segOf l fp pp).filter (fun e => decide (¬ e ∈ tp)) ++ tp.reverse)
            (segOf l fp pp) := by
        have hp := List.filter_append_perm (fun e => decide (¬ e ∈ tp)) (segOf l fp pp)
        have hneg : (segOf l fp pp).filter (fun e => !(decide (¬ e ∈ tp))) =
            (segOf l fp pp).filter (fun e => decide (e ∈ tp.reverse)) := by
          apply List.filter_congr
          intro e he
          by_cases hm : e ∈ tp
          · simp [hm]
          · simp [hm]
        rw [hneg, filter_mem_of_sublist hsubseg hnd_seg] at hp
        exact hp
      have hperm2 : List.Perm
          (l.take fp ++ (segOf l fp pp).filter (fun e => decide (¬ e ∈ tp)) ++
            tp.reverse ++ l.drop (pp + 1))
          (l.take fp ++ segOf l fp pp ++ l.drop (pp + 1)) := by
        have hstep1 : List.Perm
            ((segOf l fp pp).filter (fun e => decide (¬ e ∈ tp)) ++ tp.reverse ++
              l.drop (pp + 1))
            (segOf l fp pp ++ l.drop (pp + 1)) :=
          hpermseg.append_right _
        have hstep2 := hstep1.append_left (l.take fp)
        have e1 : l.take fp ++ ((segOf l fp pp).filter (fun e => decide (¬ e ∈ tp)) ++
            tp.reverse ++ l.drop (pp + 1)) =
            l.take fp ++ (segOf l fp pp).filter (fun e => decide (¬ e ∈ tp)) ++
              tp.reverse ++ l.drop (pp + 1) := by
          simp [List.append_assoc]
        have e2 : l.take fp ++ (segOf l fp pp ++ l.drop (pp + 1)) =
            l.take fp ++ segOf l fp pp ++ l.drop (pp + 1) := by
          simp [List.append_assoc]
        rw [e1, e2] at hstep2
        exact hstep2
      have hdecomp : l.take fp ++ segOf l fp pp ++ l.drop (pp + 1) = l := by
        have hseg_drop : segOf l fp pp ++ l.drop (pp + 1) = l.drop fp := by
          rw [segOf]
          have hdd : (l.drop fp).drop (pp + 1 - fp) = l.drop (pp + 1) := by
            rw [List.drop_drop]
            congr 1
            omega
          rw [← hdd]
          exact List.take_append_drop _ _
        rw [List.append_assoc, hseg_drop, List.take_append_drop]
      rw [heq4]
      rw [hdecomp] at hperm2
      exact hperm2
  · rw [optimizeSegment, if_pos hfp] at h
    exact absurd h (by simp)

theorem pusherLoop_perm (an : LocalAnalyzer) (ngs : Nat → Nat) (relevant : Nat) :
    ∀ fuel i fpSt l l2,
      (relevant < l.length ∨ relevant = 0) →
      (∀ j, fpSt = some j → j < i ∧ isPushable an ngs (l.getD j dfl) = true) →
      l.Nodup →
      pusherLoop an ngs relevant fuel i fpSt l = .ok l2 →
      List.Perm l2 l := by
  intro fuel
  induction fuel with
  | zero =>
      intro i fpSt l l2 hrel hinv hnd h
      rw [pusherLoop_zero] at h
      exact absurd h (by simp)
  | succ fuel ih =>
      intro i fpSt l l2 hrel hinv hnd h
      cases fpSt with
      | none =>
          rw [pusherLoop_succ_none] at h
          by_cases hi : i < relevant
          · rw [if_pos hi] at h
            by_cases hpu : isPushable an ngs (l.getD i dfl) = true
            · rw [if_pos hpu] at h
              exact ih (i+1) (some i) l l2 hrel
                (fun j hj => by
                  injection hj with hj2
                  subst hj2
                  exact ⟨by omega, hpu⟩) hnd h
            · rw [if_neg hpu] at h
              exact ih (i+1) none l l2 hrel (fun j hj => by simp at hj) hnd h
          · rw [if_neg hi] at h
            injection h with h2
            subst h2
            exact List.Perm.refl _
      | some fp =>
          rw [pusherLoop_succ_some] at h
          by_cases hi : i < relevant
          · rw [if_pos hi] at h
            have hrel2 : relevant < l.length := by
              rcases hrel with hrel | hrel
              · exact hrel
              · omega
            by_cases hppt : isPushPoint (l.getD i dfl) = true
            · rw [if_pos hppt] at h
              rcases hseg : optimizeSegment an ngs fp i l with err | ⟨i2, lmid⟩
              · rw [hseg] at h
                exact absurd h (by simp)
              · rw [hseg] at h
                have hperm1 := optimizeSegment_perm an ngs fp i l i2 lmid (by omega) hnd hseg
                have hndmid : lmid.Nodup := (hperm1.nodup_iff).mpr hnd
                have hlenmid : lmid.length = l.length := hperm1.length_eq
                have hperm2 := ih i2 none lmid l2 (by omega)
                  (fun j hj => by simp at hj) hndmid h
                exact hperm2.trans hperm1
            · rw [if_neg hppt] at h
              exact ih (i+1) (some fp) l l2 hrel
                (fun j hj => by
                  injection hj with hj2
                  subst hj2
                  obtain ⟨h1, h2⟩ := hinv fp rfl
                  exact ⟨by omega, h2⟩) hnd h
          · rw [if_neg hi] at h
            injection h with h2
            subst h2
            exact List.Perm.refl _

/-- Claim C10: for every block processed by the block pusher whose
instruction list has pairwise distinct instruction nodes, the rewritten list
is a permutation of the original: the same length and exactly the same
instructions, none dropped and none duplicated. -/
theorem runPusher_permutation (an : LocalAnalyzer) (ngs : Nat → Nat) (l l2 : List Expr)
    (hnd : l.Nodup) (h : runPusher an ngs l = .ok l2) : List.Perm l2 l := by
  rw [runPusher] at h
  exact pusherLoop_perm an ngs (l.length - 1) (pusherFuel l) 0 none l l2
    (by omega) (fun j hj => by simp at hj) hnd h

/-- Witness for C10 at a concrete rewritten block. -/
theorem runPusher_permutation_witness :
    ([Expr.localSet 0 (.const 5), Expr.brIf (.const 1), Expr.localGet 0].Nodup ∧
      runPusher { numSets := fun _ => 1, numGets := fun _ => 2, sfa := fun _ => true }
        (fun _ => 2) [Expr.localSet 0 (.const 5), Expr.brIf (.const 1), Expr.localGet 0] =
        .ok [Expr.brIf (.const 1), Expr.localSet 0 (.const 5), Expr.localGet 0]) ∧
    List.Perm [Expr.brIf (.const 1), Expr.localSet 0 (.const 5), Expr.localGet 0]
      [Expr.localSet 0 (.const 5), Expr.brIf (.const 1), Expr.localGet 0] :=
  ⟨⟨by decide, by decide⟩,
    runPusher_permutation { numSets := fun _ => 1, numGets := fun _ => 2, sfa := fun _ => true }
      (fun _ => 2) [Expr.localSet 0 (.const 5), Expr.brIf (.const 1), Expr.localGet 0]
      [Expr.brIf (.const 1), Expr.localSet 0 (.const 5), Expr.localGet 0]
      (by decide) (by decide)⟩

/-- Claim C4: for every segment rewrite, the instructions not selected for
pushing keep their relative order (compacted leftward as a filtered
subsequence), the selected instructions keep their original relative order
(`toPush` reversed) and occupy the trailing slots ending exactly at the
push-point index, and the push-point instruction itself ends up shifted left
by the number of selected instructions. -/
theorem c4_segment_rewrite (an : LocalAnalyzer) (ngs : Nat → Nat) (l : List Expr)
    (fp pp : Nat) (cum : EffectAnalyzer) (tp : List Expr)
    (hfp : fp < pp) (hpp : pp < l.length) (hnd : l.Nodup)
    (hscan : scanBack an ngs l fp (pp - 1)
      (ignoreControlFlowTransfers (effWalk emptyEffects (l.getD pp dfl))) [] =
        some (cum, tp)) :
    optimizeSegment an ngs fp pp l =
      .ok (pp + 1 - tp.length,
        l.take fp ++ (segOf l fp pp).filter (fun e => decide (¬ e ∈ tp)) ++
          tp.reverse ++ l.drop (pp + 1)) ∧
    (l.take fp ++ (segOf l fp pp).filter (fun e => decide (¬ e ∈ tp)) ++
        tp.reverse ++ l.drop (pp + 1)).getD (pp - tp.length) dfl = l.getD pp dfl := by
  refine ⟨optimizeSegment_eq an ngs l fp pp cum tp hfp hpp hnd hscan, ?_⟩
  have hnotmem := getD_pp_not_mem hfp hpp hnd hscan
  obtain ⟨hsub0, hpush⟩ := toPush_sublist an ngs l fp pp cum tp hfp hscan
  have htplen : tp.length ≤ pp - fp := by
    have := hsub0.length_le
    simpa [vslice_length] using this
  have hbig_eq : vslice l fp (pp + 1 - fp) = segOf l fp pp :=
    vslice_eq_drop_take (by omega)
  have hsplit : segOf l fp pp = vslice l fp (pp - fp) ++ [l.getD pp dfl] := by
    rw [← hbig_eq]
    have ha : pp + 1 - fp = (pp - fp) + 1 := by omega
    have hb : fp + (pp - fp) = pp := by omega
    rw [ha, vslice_concat, hb]
  have hsub : List.Sublist tp.reverse (vslice l fp (pp + 1 - fp)) := by
    rw [hbig_eq, hsplit]
    exact hsub0.trans (List.sublist_append_left _ _)
  have hFl : ((segOf l fp pp).filter (fun e => decide (¬ e ∈ tp))).length + tp.length =
      pp + 1 - fp := by
    have hg := greedyKeep_length hsub
    have hnd_seg : (vslice l fp (pp + 1 - fp)).Nodup := by
      rw [hbig_eq, segOf]
      exact ((List.take_sublist _ _).trans (List.drop_sublist _ _)).nodup hnd
    have hgf := greedyKeep_of_nodup hsub hnd_seg
    have hcongr : (vslice l fp (pp + 1 - fp)).filter (fun e => decide (¬ e ∈ tp.reverse)) =
        (segOf l fp pp).filter (fun e => decide (¬ e ∈ tp)) := by
      rw [hbig_eq]
      apply List.filter_congr
      intro e he
      simp [List.mem_reverse]
    rw [hgf, hcongr, List.length_reverse, vslice_length] at hg
    exact hg
  have hFsplit : (segOf l fp pp).filter (fun e => decide (¬ e ∈ tp)) =
      (vslice l fp (pp - fp)).filter (fun e => decide (¬ e ∈ tp)) ++ [l.getD pp dfl] := by
    rw [hsplit, List.filter_append]
    congr 1
    have h2 : (decide (¬ l.getD pp dfl ∈ tp)) = true := by simpa using hnotmem
    simp only [List.filter_cons, h2, if_true, List.filter_nil]
  have htake_len : (l.take fp).length = fp := by
    simp
    omega
  have hFpos : ((segOf l fp pp).filter (fun e => decide (¬ e ∈ tp))).length =
      ((vslice l fp (pp - fp)).filter (fun e => decide (¬ e ∈ tp))).length + 1 := by
    rw [hFsplit]
    simp
  rw [getD_append_left (by
      rw [List.length_append, List.length_append, htake_len, List.length_reverse]
      omega),
    getD_append_left (by
      rw [List.length_append, htake_len]
      omega),
    getD_append_right (by rw [htake_len] ; omega),
    htake_len]
  rw [hFsplit, getD_append_right (by omega)]
  have hidx : pp - tp.length - fp -
      ((vslice l fp (pp - fp)).filter (fun e => decide (¬ e ∈ tp))).length = 0 := by
    omega
  rw [hidx]
  rfl

/-- Witness for C4 at a concrete segment. -/
theorem c4_segment_rewrite_witness :
    ((0 : Nat) < 1 ∧ (1 : Nat) < 3 ∧
      [Expr.localSet 0 (.const 5), Expr.brIf (.const 1), Expr.localGet 0].Nodup ∧
      scanBack { numSets := fun _ => 1, numGets := fun _ => 2, sfa := fun _ => true }
        (fun _ => 2) [Expr.localSet 0 (.const 5), Expr.brIf (.const 1), Expr.localGet 0]
        0 0
        (ignoreControlFlowTransfers (effWalk emptyEffects
          ([Expr.localSet 0 (.const 5), Expr.brIf (.const 1), Expr.localGet 0].getD 1 dfl)))
        [] =
        some (⟨[], [], false, true, true⟩, [Expr.localSet 0 (.const 5)])) ∧
    optimizeSegment { numSets := fun _ => 1, numGets := fun _ => 2, sfa := fun _ => true }
      (fun _ => 2) 0 1 [Expr.localSet 0 (.const 5), Expr.brIf (.const 1), Expr.localGet 0] =
      .ok (1, [Expr.brIf (.const 1), Expr.localSet 0 (.const 5), Expr.localGet 0]) := by
  refine ⟨⟨by decide, by decide, by decide, by decide⟩, ?_⟩
  have h := (c4_segment_rewrite
    { numSets := fun _ => 1, numGets := fun _ => 2, sfa := fun _ => true }
    (fun _ => 2) [Expr.localSet 0 (.const 5), Expr.brIf (.const 1), Expr.localGet 0]
    0 1 ⟨[], [], false, true, true⟩ [Expr.localSet 0 (.const 5)]
    (by decide) (by decide) (by decide) (by decide)).1
  rw [h]
  rfl

/-- Claim C9: every assertion failure of the segment optimizer carries the
block list unmodified: the selection is computed in the scratch `toPush`
list before any write, the entry and backward-scan assertions precede the
first mutation, and the post-compaction assertion never fails, so no
partial-failure state is reachable mid-segment. -/
theorem c9_error_unmodified (an : LocalAnalyzer) (ngs : Nat → Nat) (fp pp : Nat)
    (l err : List Expr) (h : optimizeSegment an ngs fp pp l = .error err) : err = l :=
  optimizeSegment_error an ngs fp pp l err h

/-- Witness for C9 at a concrete failing segment (entered with
`firstPushable ≥ pushPoint`). -/
theorem c9_error_unmodified_witness :
    optimizeSegment { numSets := fun _ => 1, numGets := fun _ => 2, sfa := fun _ => true }
      (fun _ => 2) 1 0 [Expr.br] = .error [Expr.br] ∧ ([Expr.br] : List Expr) = [Expr.br] :=
  ⟨rfl,
    c9_error_unmodified { numSets := fun _ => 1, numGets := fun _ => 2, sfa := fun _ => true }
      (fun _ => 2) 1 0 [Expr.br] [Expr.br] rfl⟩

theorem getD_cons_zero (a : Expr) (s : List Expr) : (a :: s).getD 0 dfl = a := rfl

theorem getD_cons_succ (a : Expr) (s : List Expr) (r : Nat) :
    (a :: s).getD (r+1) dfl = s.getD r dfl := rfl

theorem mem_of_getD {s : List Expr} {r : Nat} {x : Expr} (h : r < s.length)
    (he : s.getD r dfl = x) : x ∈ s := by
  rw [getD_eq_getElem h] at he
  rw [← he]
  exact List.getElem_mem _

theorem mem_getD_exists {s : List Expr} {x : Expr} (h : x ∈ s) :
    ∃ r, r < s.length ∧ s.getD r dfl = x := by
  obtain ⟨r, hr, he⟩ := List.mem_iff_getElem.mp h
  exact ⟨r, hr, by rw [getD_eq_getElem hr, he]⟩

theorem sublist_before {u s : List Expr} (h : List.Sublist u s) (hnd : s.Nodup) :
    ∀ x y, x ∈ u → y ∈ u → Before s x y → Before u x y := by
  induction h with
  | slnil =>
      intro x y hx hy hb
      exact absurd hx (by simp)
  | @cons u' s' a h ih =>
      intro x y hx hy hb
      have hnd' : s'.Nodup := by
        simp only [List.nodup_cons] at hnd
        exact hnd.2
      have hna : ¬ a ∈ s' := by
        simp only [List.nodup_cons] at hnd
        exact hnd.1
      obtain ⟨p, q, hpq, hq, hxp, hyq⟩ := hb
      have hp0 : p ≠ 0 := by
        intro hc
        subst hc
        rw [getD_cons_zero] at hxp
        exact hna (h.subset (hxp ▸ hx))
      have hq0 : q ≠ 0 := by omega
      obtain ⟨p', rfl⟩ := Nat.exists_eq_succ_of_ne_zero hp0
      obtain ⟨q', rfl⟩ := Nat.exists_eq_succ_of_ne_zero hq0
      rw [getD_cons_succ] at hxp
      rw [getD_cons_succ] at hyq
      exact ih hnd' x y hx hy ⟨p', q', by omega, by simpa using hq, hxp, hyq⟩
  | @cons₂ u' s' a h ih =>
      intro x y hx hy hb
      have hnd' : s'.Nodup := by
        simp only [List.nodup_cons] at hnd
        exact hnd.2
      have hna : ¬ a ∈ s' := by
        simp only [List.nodup_cons] at hnd
        exact hnd.1
      obtain ⟨p, q, hpq, hq, hxp, hyq⟩ := hb
      have hq0 : q ≠ 0 := by omega
      obtain ⟨q', rfl⟩ := Nat.exists_eq_succ_of_ne_zero hq0
      rw [getD_cons_succ] at hyq
      have hq' : q' < s'.length := by simpa using hq
      have hyne : y ≠ a := by
        intro hc
        subst hc
        exact hna (mem_of_getD (by simpa using hq) hyq)
      have hyu : y ∈ u' := by
        rcases List.mem_cons.mp hy with hc | hc
        · exact absurd hc hyne
        · exact hc
      by_cases hp0 : p = 0
      · subst hp0
        rw [getD_cons_zero] at hxp
        obtain ⟨r, hr, hre⟩ := mem_getD_exists hyu
        exact ⟨0, r + 1, by omega, by simpa using hr, by rw [getD_cons_zero, hxp],
          by rw [getD_cons_succ, hre]⟩
      · obtain ⟨p', rfl⟩ := Nat.exists_eq_succ_of_ne_zero hp0
        rw [getD_cons_succ] at hxp
        have hxne : x ≠ a := by
          intro hc
          subst hc
          exact hna (mem_of_getD (by omega : p' < s'.length) hxp)
        have hxu : x ∈ u' := by
          rcases List.mem_cons.mp hx with hc | hc
          · exact absurd hc hxne
          · exact hc
        obtain ⟨pr, qr, h1, h2, h3, h4⟩ :=
          ih hnd' x y hxu hyu ⟨p', q', by omega, by simpa using hq, hxp, hyq⟩
        exact ⟨pr + 1, qr + 1, by omega, by simpa using h2,
          by rw [getD_cons_succ, h3], by rw [getD_cons_succ, h4]⟩

theorem goodAt_mono {l : List Expr} {pp : Nat} {S S2 : List Expr} {j : Nat}
    (hsub : ∀ e, e ∈ S → e ∈ S2) (h : GoodAt l pp S j) : GoodAt l pp S2 j := by
  intro k v hset m hm1 hm2 hmS
  exact h k v hset m hm1 hm2 (fun hc => hmS (hsub _ hc))

theorem goodAt_of_selected (an : LocalAnalyzer) (ngs : Nat → Nat) (l : List Expr)
    (pp : Nat) (S : List Expr) (j : Nat) (cum : EffectAnalyzer)
    (hninv : invalidates cum (effectsOf (l.getD j dfl)) = false)
    (H1 : ∀ m, j < m → m ≤ pp → ¬ l.getD m dfl ∈ S →
      ∀ k, k ∈ (effectsOf (l.getD m dfl)).localsRead → k ∈ cum.localsRead) :
    GoodAt l pp S j := by
  intro k v hset m hm1 hm2 hmS hkread
  have hk := H1 m hm1 hm2 hmS k hkread
  have hw : k ∈ (effectsOf (l.getD j dfl)).localsWritten := by
    rw [hset]
    exact localSet_mem_written k v
  have hcontra := invalidates_of_read_write hk hw
  rw [hcontra] at hninv
  exact Bool.noConfusion hninv

theorem scanCum_read_mono (an : LocalAnalyzer) (ngs : Nat → Nat)
    (cum : EffectAnalyzer) (e : Expr) {k : Nat} (h : k ∈ cum.localsRead) :
    k ∈ (scanCum an ngs cum e).localsRead := by
  rw [scanCum]
  by_cases hpu : isPushable an ngs e = true
  · rw [if_pos hpu]
    by_cases hinv : invalidates cum (effectsOf e) = true
    · rw [if_pos hinv]
      exact mem_read_mergeIn_left h
    · rw [if_neg hinv]
      exact h
  · rw [if_neg hpu]
    exact mem_read_effWalk_acc h

theorem scanBack_good (an : LocalAnalyzer) (ngs : Nat → Nat) (l : List Expr)
    (fp pp : Nat) :
    ∀ i cum acc cumF tp,
      i < pp →
      scanBack an ngs l fp i cum acc = some (cumF, tp) →
      (∀ m, i < m → m ≤ pp → ¬ l.getD m dfl ∈ acc →
        ∀ k, k ∈ (effectsOf (l.getD m dfl)).localsRead → k ∈ cum.localsRead) →
      (∀ e, e ∈ acc → ∃ j, j < pp ∧ e = l.getD j dfl ∧ GoodAt l pp acc j) →
      ∀ e, e ∈ tp → ∃ j, j < pp ∧ e = l.getD j dfl ∧ GoodAt l pp tp j := by
  have hstep : ∀ cur cum acc, cur < pp →
      (∀ m, cur < m → m ≤ pp → ¬ l.getD m dfl ∈ acc →
        ∀ k, k ∈ (effectsOf (l.getD m dfl)).localsRead → k ∈ cum.localsRead) →
      (∀ e, e ∈ acc → ∃ j, j < pp ∧ e = l.getD j dfl ∧ GoodAt l pp acc j) →
      ∀ e, e ∈ scanAcc an ngs cum acc (l.getD cur dfl) →
        ∃ j, j < pp ∧ e = l.getD j dfl ∧
          GoodAt l pp (scanAcc an ngs cum acc (l.getD cur dfl)) j := by
    intro cur cum acc hcur H1 H2 e he
    rw [scanAcc] at he
    by_cases hsel : (isPushable an ngs (l.getD cur dfl) &&
        !invalidates cum (effectsOf (l.getD cur dfl))) = true
    · rw [if_pos hsel] at he
      have hacc_sub : ∀ x, x ∈ acc → x ∈ scanAcc an ngs cum acc (l.getD cur dfl) := by
        intro x hx
        rw [scanAcc, if_pos hsel]
        exact List.mem_append_left _ hx
      rcases List.mem_append.mp he with he | he
      · obtain ⟨j, hj1, hj2, hj3⟩ := H2 e he
        exact ⟨j, hj1, hj2, goodAt_mono hacc_sub hj3⟩
      · have hee : e = l.getD cur dfl := by simpa using he
        subst hee
        refine ⟨cur, hcur, rfl, ?_⟩
        have hninv : invalidates cum (effectsOf (l.getD cur dfl)) = false := by
          simp only [Bool.and_eq_true, Bool.not_eq_true'] at hsel
          exact hsel.2
        apply goodAt_of_selected an ngs l pp _ cur cum hninv
        intro m hm1 hm2 hmS k hk
        have hmacc : ¬ l.getD m dfl ∈ acc := by
          intro hc
          exact hmS (hacc_sub _ hc)
        exact H1 m hm1 hm2 hmacc k hk
    · rw [if_neg hsel] at he
      have hacc_eq : scanAcc an ngs cum acc (l.getD cur dfl) = acc := by
        rw [scanAcc, if_neg hsel]
      rw [hacc_eq]
      exact H2 e he
  intro i
  induction i with
  | zero =>
      intro cum acc cumF tp hipp hscan H1 H2
      by_cases hg : (isPushable an ngs (l.getD 0 dfl) && decide (fp = 0)) = true
      · rw [scanBack, if_pos hg] at hscan
        injection hscan with h2
        injection h2 with e1 e2
        subst e2
        exact hstep 0 cum acc hipp H1 H2
      · rw [scanBack, if_neg hg] at hscan
        exact absurd hscan (by simp)
  | succ i ih =>
      intro cum acc cumF tp hipp hscan H1 H2
      by_cases hg : (isPushable an ngs (l.getD (i+1) dfl) && decide (i + 1 = fp)) = true
      · rw [scanBack, if_pos hg] at hscan
        injection hscan with h2
        injection h2 with e1 e2
        subst e2
        exact hstep (i+1) cum acc hipp H1 H2
      · rw [scanBack, if_neg hg] at hscan
        apply ih (scanCum an ngs cum (l.getD (i+1) dfl))
          (scanAcc an ngs cum acc (l.getD (i+1) dfl)) cumF tp (by omega) hscan
        · -- H1 for the next state
          intro m hm1 hm2 hmS k hk
          rcases Nat.lt_or_ge (i+1) m with hgt | hle
          · have hmacc : ¬ l.getD m dfl ∈ acc := by
              intro hc
              apply hmS
              rw [scanAcc]
              by_cases hsel : (isPushable an ngs (l.getD (i+1) dfl) &&
                  !invalidates cum (effectsOf (l.getD (i+1) dfl))) = true
              · rw [if_pos hsel]
                exact List.mem_append_left _ hc
              · rw [if_neg hsel]
                exact hc
            exact scanCum_read_mono an ngs cum _ (H1 m hgt hm2 hmacc k hk)
          · have hmeq : m = i + 1 := by omega
            subst hmeq
            rw [scanCum]
            by_cases hpu : isPushable an ngs (l.getD (i+1) dfl) = true
            · rw [if_pos hpu]
              by_cases hinv : invalidates cum (effectsOf (l.getD (i+1) dfl)) = true
              · rw [if_pos hinv]
                simp only [mergeIn, List.mem_append]
                exact Or.inr hk
              · exfalso
                apply hmS
                rw [scanAcc, if_pos (by
                  rw [Bool.and_eq_true, Bool.not_eq_true']
                  exact ⟨hpu, by simpa using hinv⟩)]
                exact List.mem_append_right _ (by simp)
            · rw [if_neg hpu]
              exact mem_read_effWalk_new hk
        · -- H2 for the next state
          exact hstep (i+1) cum acc hipp H1 H2

theorem optimizeSegment_preserves (an : LocalAnalyzer) (ngs : Nat → Nat) (fp pp : Nat)
    (l : List Expr) (i2 : Nat) (l2 : List Expr)
    (hpp : pp < l.length) (hnd : l.Nodup)
    (hseg : optimizeSegment an ngs fp pp l = .ok (i2, l2)) :
    ∀ ja jb k v, ja < jb → jb < l.length →
      l.getD ja dfl = .localSet k v →
      k ∈ (effectsOf (l.getD jb dfl)).localsRead →
      Before l2 (l.getD ja dfl) (l.getD jb dfl) := by
  intro ja jb k v hjab hjb hset hread
  by_cases hfp : fp < pp
  · rcases hscan : scanBack an ngs l fp (pp - 1)
        (ignoreControlFlowTransfers (effWalk emptyEffects (l.getD pp dfl))) [] with
        _ | ⟨cum, tp⟩
    · rw [optimizeSegment, if_neg (not_not_intro hfp), hscan] at hseg
      exact absurd hseg (by simp)
    · have heq := optimizeSegment_eq an ngs l fp pp cum tp hfp hpp hnd hscan
      rw [hseg] at heq
      injection heq with heq2
      injection heq2 with heq3 heq4
      have hgood := scanBack_good an ngs l fp pp (pp - 1)
        (ignoreControlFlowTransfers (effWalk emptyEffects (l.getD pp dfl))) [] cum tp
        (by omega) hscan
        (by
          intro m hm1 hm2 hmem k2 hk2
          have hmeq : m = pp := by omega
          subst hmeq
          exact mem_read_effWalk_new hk2)
        (by intro e he ; simp at he)
      obtain ⟨hsub0, hpush⟩ := toPush_sublist an ngs l fp pp cum tp hfp hscan
      have htplen : tp.length ≤ pp - fp := by
        have := hsub0.length_le
        simpa [vslice_length] using this
      have hbig_eq : vslice l fp (pp + 1 - fp) = segOf l fp pp :=
        vslice_eq_drop_take (by omega)
      have hnd_seg : (segOf l fp pp).Nodup := by
        rw [segOf]
        exact ((List.take_sublist _ _).trans (List.drop_sublist _ _)).nodup hnd
      have hsubseg : List.Sublist tp.reverse (segOf l fp pp) := by
        rw [← hbig_eq]
        have hbigv : vslice l fp (pp + 1 - fp) =
            vslice l fp (pp - fp) ++ [l.getD pp dfl] := by
          have ha : pp + 1 - fp = (pp - fp) + 1 := by omega
          have hb : fp + (pp - fp) = pp := by omega
          rw [ha, vslice_concat, hb]
        rw [hbigv]
        exact hsub0.trans (List.sublist_append_left _ _)
      have hnd_big : (vslice l fp (pp + 1 - fp)).Nodup := by
        rw [hbig_eq]
        exact hnd_seg
      have hsubbig : List.Sublist tp.reverse (vslice l fp (pp + 1 - fp)) := by
        rw [hbig_eq]
        exact hsubseg
      have hFl : ((segOf l fp pp).filter (fun e => decide (¬ e ∈ tp))).length + tp.length =
          pp + 1 - fp := by
        have hg := greedyKeep_length hsubbig
        have hgf := greedyKeep_of_nodup hsubbig hnd_big
        have hcongr : (vslice l fp (pp + 1 - fp)).filter (fun e => decide (¬ e ∈ tp.reverse)) =
            (segOf l fp pp).filter (fun e => decide (¬ e ∈ tp)) := by
          rw [hbig_eq]
          apply List.filter_congr
          intro e he
          simp [List.mem_reverse]
        rw [hgf, hcongr, List.length_reverse, vslice_length] at hg
        exact hg
      have htake_len : (l.take fp).length = fp := by
        simp
        omega
      have hseglen : (segOf l fp pp).length = pp + 1 - fp := by
        rw [← hbig_eq, vslice_length]
      have hlen2 : (l.take fp ++ (segOf l fp pp).filter (fun e => decide (¬ e ∈ tp))).length =
          fp + ((segOf l fp pp).filter (fun e => decide (¬ e ∈ tp))).length := by
        rw [List.length_append, htake_len]
      have hlen3 : (l.take fp ++ (segOf l fp pp).filter (fun e => decide (¬ e ∈ tp)) ++
          tp.reverse).length =
          fp + ((segOf l fp pp).filter (fun e => decide (¬ e ∈ tp))).length + tp.length := by
        rw [List.length_append, hlen2, List.length_reverse]
      have hl2len : l2.length = l.length := by
        rw [heq4]
        simp only [List.length_append, htake_len, List.length_reverse, List.length_drop]
        omega
      have hlow : ∀ j, j < fp → l2.getD j dfl = l.getD j dfl := by
        intro j hj
        rw [heq4, getD_append_left (by rw [hlen3] ; omega),
          getD_append_left (by rw [hlen2] ; omega),
          getD_append_left (by rw [htake_len] ; omega), getD_take (by omega)]
      have hhigh : ∀ j, pp < j → j < l.length → l2.getD j dfl = l.getD j dfl := by
        intro j hj1 hj2
        rw [heq4, getD_append_right (by rw [hlen3] ; omega), hlen3, getD_drop]
        congr 1
        omega
      have hFpos : ∀ r, r < ((segOf l fp pp).filter (fun e => decide (¬ e ∈ tp))).length →
          l2.getD (fp + r) dfl =
            ((segOf l fp pp).filter (fun e => decide (¬ e ∈ tp))).getD r dfl := by
        intro r hr
        rw [heq4, getD_append_left (by rw [hlen3] ; omega),
          getD_append_left (by rw [hlen2] ; omega),
          getD_append_right (by rw [htake_len] ; omega), htake_len]
        congr 1
        omega
      have hTpos : ∀ r, r < tp.length →
          l2.getD (fp + ((segOf l fp pp).filter (fun e => decide (¬ e ∈ tp))).length + r)
            dfl = tp.reverse.getD r dfl := by
        intro r hr
        rw [heq4, getD_append_left (by rw [hlen3] ; omega),
          getD_append_right (by rw [hlen2] ; omega), hlen2]
        congr 1
        omega
      have hsegget : ∀ j, fp ≤ j → j ≤ pp →
          (segOf l fp pp).getD (j - fp) dfl = l.getD j dfl := by
        intro j hj1 hj2
        rw [← hbig_eq, vslice_getD (by omega)]
        congr 1
        omega
      have hsegmem : ∀ j, fp ≤ j → j ≤ pp → l.getD j dfl ∈ segOf l fp pp := by
        intro j hj1 hj2
        exact mem_of_getD (by omega : j - fp < (segOf l fp pp).length) (hsegget j hj1 hj2)
      have hposF : ∀ j, fp ≤ j → j ≤ pp → ¬ l.getD j dfl ∈ tp →
          ∃ p, fp ≤ p ∧
            p < fp + ((segOf l fp pp).filter (fun e => decide (¬ e ∈ tp))).length ∧
            l2.getD p dfl = l.getD j dfl := by
        intro j hj1 hj2 hjt
        have hmem : l.getD j dfl ∈ (segOf l fp pp).filter (fun e => decide (¬ e ∈ tp)) := by
          rw [List.mem_filter]
          exact ⟨hsegmem j hj1 hj2, by simpa using hjt⟩
        obtain ⟨r, hr, hre⟩ := mem_getD_exists hmem
        exact ⟨fp + r, by omega, by omega, by rw [hFpos r hr, hre]⟩
      have hposT : ∀ j, ¬ l.getD j dfl ∈ tp ∨ True →
          l.getD j dfl ∈ tp →
          ∃ p, fp + ((segOf l fp pp).filter (fun e => decide (¬ e ∈ tp))).length ≤ p ∧
            p < pp + 1 ∧ l2.getD p dfl = l.getD j dfl := by
        intro j _ hjt
        have hmem : l.getD j dfl ∈ tp.reverse := by simpa using hjt
        obtain ⟨r, hr, hre⟩ := mem_getD_exists hmem
        have hrlen : r < tp.length := by simpa using hr
        exact ⟨fp + ((segOf l fp pp).filter (fun e => decide (¬ e ∈ tp))).length + r,
          by omega, by omega, by rw [hTpos r hrlen, hre]⟩
      rcases Nat.lt_or_ge jb fp with hjbfp | hjbfp
      · exact ⟨ja, jb, hjab, by omega, hlow ja (by omega), hlow jb hjbfp⟩
      · rcases Nat.lt_or_ge ja fp with hjafp | hjafp
        · -- the assignment is before the segment and does not move
          rcases Nat.lt_or_ge pp jb with hjbpp | hjbpp
          · exact ⟨ja, jb, hjab, by omega, hlow ja hjafp, hhigh jb hjbpp hjb⟩
          · by_cases hbtp : l.getD jb dfl ∈ tp
            · obtain ⟨q, hq1, hq2, hq3⟩ := hposT jb (Or.inr trivial) hbtp
              exact ⟨ja, q, by omega, by omega, hlow ja hjafp, hq3⟩
            · obtain ⟨q, hq1, hq2, hq3⟩ := hposF jb hjbfp hjbpp hbtp
              exact ⟨ja, q, by omega, by omega, hlow ja hjafp, hq3⟩
        · rcases Nat.lt_or_ge pp ja with hjapp | hjapp
          · -- both after the push point
            exact ⟨ja, jb, hjab, by omega, hhigh ja hjapp (by omega), hhigh jb (by omega) hjb⟩
          · rcases Nat.lt_or_ge pp jb with hjbpp | hjbpp
            · -- the reader is after the push point and does not move
              by_cases hatp : l.getD ja dfl ∈ tp
              · obtain ⟨p, hp1, hp2, hp3⟩ := hposT ja (Or.inr trivial) hatp
                exact ⟨p, jb, by omega, by omega, hp3, hhigh jb hjbpp hjb⟩
              · obtain ⟨p, hp1, hp2, hp3⟩ := hposF ja hjafp hjapp hatp
                exact ⟨p, jb, by omega, by omega, hp3, hhigh jb hjbpp hjb⟩
            · -- both inside the segment
              by_cases hatp : l.getD ja dfl ∈ tp
              · -- the assignment was selected: the reader must have been selected too
                obtain ⟨j0, hj0pp, hj0eq, hgoodj0⟩ := hgood _ hatp
                have hj0ja : j0 = ja :=
                  getD_inj hnd (by omega) (by omega) hj0eq.symm
                rw [hj0ja] at hgoodj0
                have hbtp : l.getD jb dfl ∈ tp := by
                  by_contra hbnot
                  exact (hgoodj0 k v hset jb hjab hjbpp hbnot) hread
                have hat : l.getD ja dfl ∈ tp.reverse := by simpa using hatp
                have hbt : l.getD jb dfl ∈ tp.reverse := by simpa using hbtp
                have hBseg : Before (segOf l fp pp) (l.getD ja dfl) (l.getD jb dfl) :=
                  ⟨ja - fp, jb - fp, by omega, by omega,
                    hsegget ja hjafp hjapp, hsegget jb hjbfp hjbpp⟩
                obtain ⟨r1, r2, hr12, hr2, he1, he2⟩ :=
                  sublist_before hsubseg hnd_seg _ _ hat hbt hBseg
                have hr2len : r2 < tp.length := by simpa using hr2
                have hr1len : r1 < tp.length := by omega
                refine ⟨fp + ((segOf l fp pp).filter (fun e => decide (¬ e ∈ tp))).length + r1,
                  fp + ((segOf l fp pp).filter (fun e => decide (¬ e ∈ tp))).length + r2,
                  by omega, by omega, ?_, ?_⟩
                · rw [hTpos r1 hr1len, he1]
                · rw [hTpos r2 hr2len, he2]
              · by_cases hbtp : l.getD jb dfl ∈ tp
                · -- kept assignment before any selected instruction
                  obtain ⟨p, hp1, hp2, hp3⟩ := hposF ja hjafp hjapp hatp
                  obtain ⟨q, hq1, hq2, hq3⟩ := hposT jb (Or.inr trivial) hbtp
                  exact ⟨p, q, by omega, by omega, hp3, hq3⟩
                · -- both kept: order preserved by the filter
                  have haF : l.getD ja dfl ∈
                      (segOf l fp pp).filter (fun e => decide (¬ e ∈ tp)) := by
                    rw [List.mem_filter]
                    exact ⟨hsegmem ja hjafp hjapp, by simpa using hatp⟩
                  have hbF : l.getD jb dfl ∈
                      (segOf l fp pp).filter (fun e => decide (¬ e ∈ tp)) := by
                    rw [List.mem_filter]
                    exact ⟨hsegmem jb hjbfp hjbpp, by simpa using hbtp⟩
                  have hBseg : Before (segOf l fp pp) (l.getD ja dfl) (l.getD jb dfl) :=
                    ⟨ja - fp, jb - fp, by omega, by omega,
                      hsegget ja hjafp hjapp, hsegget jb hjbfp hjbpp⟩
                  obtain ⟨r1, r2, hr12, hr2, he1, he2⟩ :=
                    sublist_before (List.filter_sublist _) hnd_seg _ _ haF hbF hBseg
                  exact ⟨fp + r1, fp + r2, by omega, by omega,
                    by rw [hFpos r1 (by omega), he1], by rw [hFpos r2 (by simpa using hr2), he2]⟩
  · rw [optimizeSegment, if_pos hfp] at hseg
    exact absurd hseg (by simp)

theorem pusherLoop_preserves (an : LocalAnalyzer) (ngs : Nat → Nat) (relevant : Nat) :
    ∀ fuel i fpSt l l2,
      (relevant < l.length ∨ relevant = 0) →
      (∀ j, fpSt = some j → j < i ∧ isPushable an ngs (l.getD j dfl) = true) →
      l.Nodup →
      pusherLoop an ngs relevant fuel i fpSt l = .ok l2 →
      ∀ ja jb k v, ja < jb → jb < l.length →
        l.getD ja dfl = .localSet k v →
        k ∈ (effectsOf (l.getD jb dfl)).localsRead →
        Before l2 (l.getD ja dfl) (l.getD jb dfl) := by
  intro fuel
  induction fuel with
  | zero =>
      intro i fpSt l l2 hrel hinv hnd h
      rw [pusherLoop_zero] at h
      exact absurd h (by simp)
  | succ fuel ih =>
      intro i fpSt l l2 hrel hinv hnd h
      cases fpSt with
      | none =>
          rw [pusherLoop_succ_none] at h
          by_cases hi : i < relevant
          · rw [if_pos hi] at h
            by_cases hpu : isPushable an ngs (l.getD i dfl) = true
            · rw [if_pos hpu] at h
              exact ih (i+1) (some i) l l2 hrel
                (fun j hj => by
                  injection hj with hj2
                  subst hj2
                  exact ⟨by omega, hpu⟩) hnd h
            · rw [if_neg hpu] at h
              exact ih (i+1) none l l2 hrel (fun j hj => by simp at hj) hnd h
          · rw [if_neg hi] at h
            injection h with h2
            subst h2
            intro ja jb k v hjab hjb hset hread
            exact ⟨ja, jb, hjab, hjb, rfl, rfl⟩
      | some fp =>
          rw [pusherLoop_succ_some] at h
          by_cases hi : i < relevant
          · rw [if_pos hi] at h
            have hrel2 : relevant < l.length := by
              rcases hrel with hrel | hrel
              · exact hrel
              · omega
            by_cases hppt : isPushPoint (l.getD i dfl) = true
            · rw [if_pos hppt] at h
              rcases hseg : optimizeSegment an ngs fp i l with err | ⟨i2, lmid⟩
              · rw [hseg] at h
                exact absurd h (by simp)
              · rw [hseg] at h
                have hperm := optimizeSegment_perm an ngs fp i l i2 lmid (by omega) hnd hseg
                have hndmid : lmid.Nodup := (hperm.nodup_iff).mpr hnd
                have hlenmid : lmid.length = l.length := hperm.length_eq
                intro ja jb k v hjab hjb hset hread
                obtain ⟨p, q, hpq, hq, hpe, hqe⟩ :=
                  optimizeSegment_preserves an ngs fp i l i2 lmid (by omega) hnd hseg
                    ja jb k v hjab hjb hset hread
                have hres := ih i2 none lmid l2 (by omega)
                  (fun j hj => by simp at hj) hndmid h p q k v hpq hq
                  (by rw [hpe, hset]) (by rw [hqe] ; exact hread)
                rw [hpe, hqe] at hres
                exact hres
            · rw [if_neg hppt] at h
              exact ih (i+1) (some fp) l l2 hrel
                (fun j hj => by
                  injection hj with hj2
                  subst hj2
                  obtain ⟨h1, h2⟩ := hinv fp rfl
                  exact ⟨by omega, h2⟩) hnd h
          · rw [if_neg hi] at h
            injection h with h2
            subst h2
            intro ja jb k v hjab hjb hset hread
            exact ⟨ja, jb, hjab, hjb, rfl, rfl⟩

/-- Claim C2: the block pusher never moves an assignment past a read of the
same slot: for every pair of instructions of the original list where an
assignment to a slot precedes an instruction reading that slot, some
occurrence of the assignment still precedes some occurrence of the reader in
the rewritten list, so no read of a slot comes to precede the (possibly
relocated) assignment to it. -/
theorem runPusher_no_set_past_get (an : LocalAnalyzer) (ngs : Nat → Nat)
    (l l2 : List Expr) (hnd : l.Nodup) (h : runPusher an ngs l = .ok l2) :
    ∀ ja jb k v, ja < jb → jb < l.length →
      l.getD ja dfl = .localSet k v →
      k ∈ (effectsOf (l.getD jb dfl)).localsRead →
      Before l2 (l.getD ja dfl) (l.getD jb dfl) := by
  rw [runPusher] at h
  exact pusherLoop_preserves an ngs (l.length - 1) (pusherFuel l) 0 none l l2
    (by omega) (fun j hj => by simp at hj) hnd h

/-- Witness for C2 at a concrete rewritten block. -/
theorem runPusher_no_set_past_get_witness :
    ([Expr.localSet 0 (.const 5), Expr.brIf (.const 1), Expr.localGet 0].Nodup ∧
      runPusher { numSets := fun _ => 1, numGets := fun _ => 2, sfa := fun _ => true }
        (fun _ => 2) [Expr.localSet 0 (.const 5), Expr.brIf (.const 1), Expr.localGet 0] =
        .ok [Expr.brIf (.const 1), Expr.localSet 0 (.const 5), Expr.localGet 0] ∧
      (0 : Nat) < 2 ∧ (2 : Nat) < 3 ∧
      ([Expr.localSet 0 (.const 5), Expr.brIf (.const 1), Expr.localGet 0].getD 0 dfl =
        Expr.localSet 0 (.const 5)) ∧
      0 ∈ (effectsOf ([Expr.localSet 0 (.const 5), Expr.brIf (.const 1),
        Expr.localGet 0].getD 2 dfl)).localsRead) ∧
    Before [Expr.brIf (.const 1), Expr.localSet 0 (.const 5), Expr.localGet 0]
      ([Expr.localSet 0 (.const 5), Expr.brIf (.const 1), Expr.localGet 0].getD 0 dfl)
      ([Expr.localSet 0 (.const 5), Expr.brIf (.const 1), Expr.localGet 0].getD 2 dfl) :=
  ⟨⟨by decide, by decide, by decide, by decide, by decide, by decide⟩,
    runPusher_no_set_past_get
      { numSets := fun _ => 1, numGets := fun _ => 2, sfa := fun _ => true } (fun _ => 2)
      [Expr.localSet 0 (.const 5), Expr.brIf (.const 1), Expr.localGet 0]
      [Expr.brIf (.const 1), Expr.localSet 0 (.const 5), Expr.localGet 0]
      (by decide) (by decide) 0 2 0 (.const 5) (by decide) (by decide) (by decide) (by decide)⟩

theorem laStep_fold (i : Nat) :
    ∀ E (st : LocalAnalyzer),
      ((E.foldl laStep st).numSets i = st.numSets i + countSets E i) ∧
      ((E.foldl laStep st).sfa i = (st.sfa i && sfaOK i (st.numSets i) E)) := by
  intro E
  induction E with
  | nil =>
      intro st
      simp [countSets, sfaOK]
  | cons ev rest ih =>
      intro st
      cases ev with
      | get j =>
          obtain ⟨ih1, ih2⟩ := ih (laStep st (.get j))
          have hns : (laStep st (.get j)).numSets i = st.numSets i := rfl
          by_cases hj : j = i
          · have hsfa : (laStep st (.get j)).sfa i =
                (st.sfa i && decide (1 ≤ st.numSets i)) := by
              show (if st.numSets j = 0 then
                  (fun j2 => if j2 = j then false else st.sfa j2) else st.sfa) i =
                (st.sfa i && decide (1 ≤ st.numSets i))
              by_cases h0 : st.numSets j = 0
              · rw [if_pos h0]
                have h0' : st.numSets i = 0 := by rw [← hj] ; exact h0
                rw [h0']
                simp [hj]
              · rw [if_neg h0]
                have hd : decide (1 ≤ st.numSets i) = true := by
                  rw [decide_eq_true_eq, ← hj]
                  omega
                rw [hd, Bool.and_true]
            constructor
            · rw [List.foldl_cons, ih1, hns, countSets]
            · rw [List.foldl_cons, ih2, hsfa, hns, sfaOK, if_pos hj, Bool.and_assoc]
          · have hsfa : (laStep st (.get j)).sfa i = st.sfa i := by
              show (if st.numSets j = 0 then
                  (fun j2 => if j2 = j then false else st.sfa j2) else st.sfa) i = st.sfa i
              by_cases h0 : st.numSets j = 0
              · rw [if_pos h0]
                show (if i = j then false else st.sfa i) = st.sfa i
                rw [if_neg (fun h => hj h.symm)]
              · rw [if_neg h0]
            constructor
            · rw [List.foldl_cons, ih1, hns, countSets]
            · rw [List.foldl_cons, ih2, hsfa, hns, sfaOK, if_neg hj]
      | set j =>
          obtain ⟨ih1, ih2⟩ := ih (laStep st (.set j))
          have hjj : (if j = j then st.numSets j + 1 else st.numSets j) =
              st.numSets j + 1 := if_pos rfl
          by_cases hj : j = i
          · have hns : (laStep st (.set j)).numSets i = st.numSets i + 1 := by
              show (if i = j then st.numSets i + 1 else st.numSets i) = st.numSets i + 1
              rw [if_pos hj.symm]
            have hsfa : (laStep st (.set j)).sfa i =
                (st.sfa i && decide (st.numSets i = 0)) := by
              show (if (if j = j then st.numSets j + 1 else st.numSets j) > 1 then
                  (fun j2 => if j2 = j then false else st.sfa j2) else st.sfa) i =
                (st.sfa i && decide (st.numSets i = 0))
              rw [hjj]
              by_cases h0 : st.numSets j + 1 > 1
              · rw [if_pos h0]
                show (if i = j then false else st.sfa i) = _
                rw [if_pos hj.symm]
                have hd : decide (st.numSets i = 0) = false := by
                  rw [decide_eq_false_iff_not, ← hj]
                  omega
                rw [hd, Bool.and_false]
              · rw [if_neg h0]
                have hd : decide (st.numSets i = 0) = true := by
                  rw [decide_eq_true_eq, ← hj]
                  omega
                rw [hd, Bool.and_true]
            constructor
            · rw [List.foldl_cons, ih1, hns, countSets, if_pos hj]
              omega
            · rw [List.foldl_cons, ih2, hsfa, hns, sfaOK, if_pos hj, Bool.and_assoc]
          · have hns : (laStep st (.set j)).numSets i = st.numSets i := by
              show (if i = j then st.numSets i + 1 else st.numSets i) = st.numSets i
              rw [if_neg (fun h => hj h.symm)]
            have hsfa : (laStep st (.set j)).sfa i = st.sfa i := by
              show (if (if j = j then st.numSets j + 1 else st.numSets j) > 1 then
                  (fun j2 => if j2 = j then false else st.sfa j2) else st.sfa) i = st.sfa i
              rw [hjj]
              by_cases h0 : st.numSets j + 1 > 1
              · rw [if_pos h0]
                show (if i = j then false else st.sfa i) = st.sfa i
                rw [if_neg (fun h => hj h.symm)]
              · rw [if_neg h0]
            constructor
            · rw [List.foldl_cons, ih1, hns, countSets, if_neg hj]
              omega
            · rw [List.foldl_cons, ih2, hsfa, hns, sfaOK, if_neg hj]

theorem sfaOK_count (i : Nat) :
    ∀ E seen, sfaOK i seen E = true → seen ≤ 1 → countSets E i + seen ≤ 1 := by
  intro E
  induction E with
  | nil =>
      intro seen h hle
      rw [countSets]
      omega
  | cons ev rest ih =>
      intro seen h hle
      cases ev with
      | get j =>
          rw [countSets]
          by_cases hj : j = i
          · rw [sfaOK, if_pos hj, Bool.and_eq_true] at h
            exact ih seen h.2 hle
          · rw [sfaOK, if_neg hj] at h
            exact ih seen h hle
      | set j =>
          by_cases hj : j = i
          · rw [sfaOK, if_pos hj, Bool.and_eq_true, decide_eq_true_eq] at h
            obtain ⟨h1, h2⟩ := h
            have hrec := ih (seen + 1) h2 (by omega)
            rw [countSets, if_pos hj]
            omega
          · rw [sfaOK, if_neg hj] at h
            rw [countSets, if_neg hj]
            have hrec := ih seen h hle
            omega

theorem sfaOK_noGet (i : Nat) :
    ∀ E, sfaOK i 0 E = true → noGetBeforeSet E i = true := by
  intro E
  induction E with
  | nil => intro h ; rfl
  | cons ev rest ih =>
      intro h
      cases ev with
      | get j =>
          by_cases hj : j = i
          · rw [sfaOK, if_pos hj] at h
            simp at h
          · rw [sfaOK, if_neg hj] at h
            rw [noGetBeforeSet, if_neg hj]
            exact ih h
      | set j =>
          by_cases hj : j = i
          · rw [noGetBeforeSet, if_pos hj]
          · rw [sfaOK, if_neg hj] at h
            rw [noGetBeforeSet, if_neg hj]
            exact ih h

/-- Claim C5: the usage analyzer marks a slot SFA only if its assignment
count is exactly one, the slot is not a parameter, and no read of the slot
occurs before its single assignment in the post-order (children before
parent, left to right) traversal; slots with zero assignments are forced
not-SFA after the traversal. -/
theorem analyze_sfa_sound (f : Func) (i : Nat) (h : (analyze f).sfa i = true) :
    countSets (eventsE f.body) i = 1 ∧ f.numParams ≤ i ∧
      noGetBeforeSet (eventsE f.body) i = true := by
  rw [analyze] at h
  simp only [Bool.and_eq_true, decide_eq_true_eq] at h
  obtain ⟨hsfa, hne⟩ := h
  obtain ⟨hfold1, hfold2⟩ := laStep_fold i (eventsE f.body)
    { numSets := fun _ => 0, numGets := fun _ => 0, sfa := fun j => decide (f.numParams ≤ j) }
  rw [hfold2] at hsfa
  rw [hfold1] at hne
  simp only [Bool.and_eq_true, decide_eq_true_eq] at hsfa
  obtain ⟨hpar, hok⟩ := hsfa
  have hcount := sfaOK_count i (eventsE f.body) 0 hok (by omega)
  have hne2 : ¬ countSets (eventsE f.body) i = 0 := by
    intro h0
    exact hne (by rw [h0])
  refine ⟨by omega, hpar, sfaOK_noGet i (eventsE f.body) hok⟩

/-- Witness for C5 at a concrete function. -/
theorem analyze_sfa_sound_witness :
    (analyze { numParams := 0, numLocals := 1,
               body := .block (.cons (.localSet 0 (.const 1)) (.cons (.localGet 0) .nil))
             }).sfa 0 = true ∧
    (countSets (eventsE (Expr.block (.cons (.localSet 0 (.const 1))
        (.cons (.localGet 0) .nil)))) 0 = 1 ∧
      (0 : Nat) ≤ 0 ∧
      noGetBeforeSet (eventsE (Expr.block (.cons (.localSet 0 (.const 1))
        (.cons (.localGet 0) .nil)))) 0 = true) :=
  ⟨by decide,
    analyze_sfa_sound { numParams := 0, numLocals := 1,
                        body := .block (.cons (.localSet 0 (.const 1))
                          (.cons (.localGet 0) .nil)) } 0
      (by decide)⟩

theorem driveL_length (an : LocalAnalyzer) : ∀ (es : ExprList) (ngs : Nat → Nat),
    ((driveL an ngs es).1).toList.length = es.toList.length
  | .nil, ngs => rfl
  | .cons e tl, ngs => by
      show ((ExprList.cons (driveE an ngs e).1
        (driveL an (driveE an ngs e).2 tl).1).toList).length = _
      rw [ExprList.toList, ExprList.toList]
      simp only [List.length_cons]
      rw [driveL_length an tl]

/-- Claim C6: on a block of fewer than three instructions the walker only
processes the children (counting their gets) and never invokes the pusher:
the resulting block is exactly the children-processed list. -/
theorem driveE_small_block (an : LocalAnalyzer) (ngs : Nat → Nat) (es : ExprList)
    (h : es.toList.length < 3) :
    driveE an ngs (.block es) = (.block (driveL an ngs es).1, (driveL an ngs es).2) := by
  have hlen : ((driveL an ngs es).1).toList.length < 3 := by
    rw [driveL_length]
    exact h
  show (if ((driveL an ngs es).1.toList).length < 3
      then ((Expr.block (driveL an ngs es).1 : Expr), (driveL an ngs es).2)
      else match runPusher an (driveL an ngs es).2 ((driveL an ngs es).1.toList) with
        | .ok l2 => (Expr.block (ExprList.ofList l2), (driveL an ngs es).2)
        | _ => (Expr.block (driveL an ngs es).1, (driveL an ngs es).2)) = _
  rw [if_pos hlen]

/-- Witness for C6 at a concrete one-instruction block. -/
theorem driveE_small_block_witness :
    (ExprList.cons (.localGet 0) .nil).toList.length < 3 ∧
    driveE { numSets := fun _ => 1, numGets := fun _ => 2, sfa := fun _ => true }
      (fun _ => 2) (.block (.cons (.localGet 0) .nil)) =
      (.block (driveL { numSets := fun _ => 1, numGets := fun _ => 2, sfa := fun _ => true }
        (fun _ => 2) (.cons (.localGet 0) .nil)).1,
       (driveL { numSets := fun _ => 1, numGets := fun _ => 2, sfa := fun _ => true }
        (fun _ => 2) (.cons (.localGet 0) .nil)).2) :=
  ⟨by decide, driveE_small_block _ _ _ (by decide)⟩

theorem scanBack_zero (an : LocalAnalyzer) (ngs : Nat → Nat) (l : List Expr) (fp : Nat)
    (cum : EffectAnalyzer) (acc : List Expr) :
    scanBack an ngs l fp 0 cum acc =
      if isPushable an ngs (l.getD 0 dfl) && decide (fp = 0) then
        some (scanCum an ngs cum (l.getD 0 dfl), scanAcc an ngs cum acc (l.getD 0 dfl))
      else none := rfl

theorem compactLoop_succ (toPush : List Expr) (steps i skip : Nat) (l : List Expr) :
    compactLoop toPush (steps+1) i skip l =
      if skip < toPush.length ∧ l.getD i dfl = toPush.getD (toPush.length - 1 - skip) dfl then
        compactLoop toPush steps (i+1) (skip+1) l
      else
        compactLoop toPush steps (i+1) skip
          (if skip = 0 then l else l.set (i - skip) (l.getD i dfl)) := rfl

/-- Claim C1: refuted as stated.  In the block
`[ x := 5; br_if (x); use(x) ]` every stated condition holds — the assigned
value is side-effect free, `x` is SFA with all reads inside the block, the
middle instruction is a conditional break, and the final instruction reads
`x` — yet the pass leaves the block unchanged, because the conditional
break's condition itself reads `x`, which invalidates the push. -/
theorem c1_counterexample :
    (hasSideEffects (effectsOf (Expr.const 5)) = false ∧
     (analyze { numParams := 0, numLocals := 1,
                body := .block (.cons (.localSet 0 (.const 5))
                  (.cons (.brIf (.localGet 0)) (.cons (.localGet 0) .nil))) }).sfa 0 = true ∧
     (driveL (analyze { numParams := 0, numLocals := 1,
                        body := .block (.cons (.localSet 0 (.const 5))
                          (.cons (.brIf (.localGet 0)) (.cons (.localGet 0) .nil))) })
        (fun _ => 0)
        (.cons (.localSet 0 (.const 5))
          (.cons (.brIf (.localGet 0)) (.cons (.localGet 0) .nil)))).2 0 =
       (analyze { numParams := 0, numLocals := 1,
                  body := .block (.cons (.localSet 0 (.const 5))
                    (.cons (.brIf (.localGet 0)) (.cons (.localGet 0) .nil))) }).numGets 0 ∧
     isPushPoint (.brIf (.localGet 0)) = true ∧
     0 ∈ (effectsOf (Expr.localGet 0)).localsRead) ∧
    runPass { numParams := 0, numLocals := 1,
              body := .block (.cons (.localSet 0 (.const 5))
                (.cons (.brIf (.localGet 0)) (.cons (.localGet 0) .nil))) } =
      { numParams := 0, numLocals := 1,
        body := .block (.cons (.localSet 0 (.const 5))
          (.cons (.brIf (.localGet 0)) (.cons (.localGet 0) .nil))) } ∧
    ¬ (runPass { numParams := 0, numLocals := 1,
                 body := .block (.cons (.localSet 0 (.const 5))
                   (.cons (.brIf (.localGet 0)) (.cons (.localGet 0) .nil))) }).body =
        .block (.cons (.brIf (.localGet 0))
          (.cons (.localSet 0 (.const 5)) (.cons (.localGet 0) .nil))) := by
  decide

/-- Claim C1 (amended): for a block `[ x := e; br_if c; u ]` where
`x := e` is pushable (SFA, reads confined, side-effect-free value) and
additionally the conditional break's effects — with control-flow
transfers ignored — do not conflict with the assignment's effects, the
pusher rewrites the block to `[ br_if c; x := e; u ]`. -/
theorem c1_push_past_conditional_break (an : LocalAnalyzer) (ngs : Nat → Nat)
    (x : Nat) (e c u : Expr)
    (hpu : isPushable an ngs (.localSet x e) = true)
    (hninv : invalidates
      (ignoreControlFlowTransfers (effWalk emptyEffects (Expr.brIf c)))
      (effectsOf (.localSet x e)) = false) :
    runPusher an ngs [.localSet x e, .brIf c, u] =
      .ok [.brIf c, .localSet x e, u] := by
  have hg0 : ([Expr.localSet x e, Expr.brIf c, u].getD 0 dfl) = Expr.localSet x e := rfl
  have hg1 : ([Expr.localSet x e, Expr.brIf c, u].getD 1 dfl) = Expr.brIf c := rfl
  have hcond : (isPushable an ngs ([Expr.localSet x e, Expr.brIf c, u].getD 0 dfl) &&
      decide ((0:Nat) = 0)) = true := by
    rw [hg0, hpu]
    rfl
  have hacc : scanAcc an ngs
      (ignoreControlFlowTransfers (effWalk emptyEffects
        ([Expr.localSet x e, Expr.brIf c, u].getD 1 dfl))) []
      ([Expr.localSet x e, Expr.brIf c, u].getD 0 dfl) = [Expr.localSet x e] := by
    rw [scanAcc, hg0, hg1, hpu, hninv]
    rfl
  have hscan : scanBack an ngs [Expr.localSet x e, Expr.brIf c, u] 0 0
      (ignoreControlFlowTransfers (effWalk emptyEffects
        ([Expr.localSet x e, Expr.brIf c, u].getD 1 dfl))) [] =
      some (scanCum an ngs
        (ignoreControlFlowTransfers (effWalk emptyEffects
          ([Expr.localSet x e, Expr.brIf c, u].getD 1 dfl)))
        ([Expr.localSet x e, Expr.brIf c, u].getD 0 dfl), [Expr.localSet x e]) := by
    rw [scanBack_zero, if_pos hcond, hacc]
  have hgrd1 : 0 < [Expr.localSet x e].length ∧
      [Expr.localSet x e, Expr.brIf c, u].getD 0 dfl =
        [Expr.localSet x e].getD ([Expr.localSet x e].length - 1 - 0) dfl :=
    ⟨by simp, rfl⟩
  have hcl : compactLoop [Expr.localSet x e] (1 + 1 - 0) 0 0
      [Expr.localSet x e, Expr.brIf c, u] = (1, [Expr.brIf c, Expr.brIf c, u]) := by
    rw [show (1 + 1 - 0 : Nat) = 1 + 1 from rfl, compactLoop_succ, if_pos hgrd1]
    rfl
  have hseg : optimizeSegment an ngs 0 1 [Expr.localSet x e, Expr.brIf c, u] =
      .ok (1, [Expr.brIf c, Expr.localSet x e, u]) := by
    rw [optimizeSegment]
    rw [if_neg (not_not_intro (by omega : (0:Nat) < 1))]
    rw [show (1:Nat) - 1 = 0 from rfl, hscan]
    show (if ([Expr.localSet x e] : List Expr).length = 0 then
        (Except.ok (1 + 1, [Expr.localSet x e, Expr.brIf c, u]) :
          Except (List Expr) (Nat × List Expr))
      else
        if (compactLoop [Expr.localSet x e] (1 + 1 - 0) 0 0
            [Expr.localSet x e, Expr.brIf c, u]).1 = [Expr.localSet x e].length then
          .ok (1 + 1 - [Expr.localSet x e].length,
            writeLoop [Expr.localSet x e] 1 [Expr.localSet x e].length 0
              (compactLoop [Expr.localSet x e] (1 + 1 - 0) 0 0
                [Expr.localSet x e, Expr.brIf c, u]).2)
        else .error (compactLoop [Expr.localSet x e] (1 + 1 - 0) 0 0
          [Expr.localSet x e, Expr.brIf c, u]).2) =
      .ok (1, [Expr.brIf c, Expr.localSet x e, u])
    rw [if_neg (by simp : ¬ ([Expr.localSet x e] : List Expr).length = 0), hcl]
    rfl
  have hpu1 : isPushable an ngs ([Expr.brIf c, Expr.localSet x e, u].getD 1 dfl) = true := by
    show isPushable an ngs (Expr.localSet x e) = true
    exact hpu
  have hpu0 : isPushable an ngs ([Expr.localSet x e, Expr.brIf c, u].getD 0 dfl) = true := by
    rw [hg0]
    exact hpu
  have hpp : isPushPoint ([Expr.localSet x e, Expr.brIf c, u].getD 1 dfl) = true := rfl
  rw [runPusher]
  rw [show [Expr.localSet x e, Expr.brIf c, u].length - 1 = 2 from rfl]
  rw [show pusherFuel [Expr.localSet x e, Expr.brIf c, u] = 10 + 1 from rfl]
  rw [pusherLoop_succ_none, if_pos (by omega : (0:Nat) < 2), if_pos hpu0]
  rw [show ((0:Nat) + 1) = 1 from rfl]
  rw [show (10:Nat) = 9 + 1 from rfl]
  rw [pusherLoop_succ_some, if_pos (by omega : (1:Nat) < 2), if_pos hpp]
  rw [hseg]
  show pusherLoop an ngs 2 9 1 none [Expr.brIf c, Expr.localSet x e, u] =
    .ok [Expr.brIf c, Expr.localSet x e, u]
  rw [show (9:Nat) = 8 + 1 from rfl]
  rw [pusherLoop_succ_none, if_pos (by omega : (1:Nat) < 2), if_pos hpu1]
  rw [show ((1:Nat) + 1) = 2 from rfl]
  rw [show (8:Nat) = 7 + 1 from rfl]
  rw [pusherLoop_succ_some, if_neg (by omega : ¬ (2:Nat) < 2)]

/-- Witness for the amended C1 at a concrete block. -/
theorem c1_push_past_conditional_break_witness :
    isPushable { numSets := fun _ => 1, numGets := fun _ => 2, sfa := fun _ => true }
      (fun _ => 2) (.localSet 0 (.const 5)) = true ∧
    invalidates (ignoreControlFlowTransfers (effWalk emptyEffects (Expr.brIf (.const 1))))
      (effectsOf (.localSet 0 (.const 5))) = false ∧
    runPusher { numSets := fun _ => 1, numGets := fun _ => 2, sfa := fun _ => true }
      (fun _ => 2) [.localSet 0 (.const 5), .brIf (.const 1), .localGet 0] =
      .ok [.brIf (.const 1), .localSet 0 (.const 5), .localGet 0] :=
  ⟨by decide, by decide,
    c1_push_past_conditional_break
      { numSets := fun _ => 1, numGets := fun _ => 2, sfa := fun _ => true }
      (fun _ => 2) 0 (.const 5) (.const 1) (.localGet 0) (by decide) (by decide)⟩
